import Mathlib

/-! mpileup2pro: the pileup field decoder and the reference/pileup merge

A shallow embedding of `src/mpileup2pro.cpp`.

Conventions of the embedding:

* a C++ `std::string` is a `List Char`, one `Char` per `char` of the string;
* `int` is the 32-bit two's complement integer: `size_indel` and `end_ng_indel` are
  integers brought into its range by `wrapInt`, and `atoi` is `(int) strtol(s, NULL, 10)`
  with `long` of 64 bits; the positions `ng`, `nag` and the counters `nuc_read[1..4]`
  count characters of the read string and are natural numbers (the conversion of
  `nr.length()` to `int length_nr` is not modelled: it is exact for every read string
  shorter than `2^31` characters);
* `nr.at(i)` with `i` outside the string throws `std::out_of_range`, which nothing
  catches: the decoder returns `none` there;
* variables keep the names they have in the source.
-/

namespace Mpileup2pro

/-! ## Data model -/

/-- The four counters `nuc_read[1]`, `nuc_read[2]`, `nuc_read[3]`, `nuc_read[4]`
(A, C, G, T) of one individual at one site. -/
structure NucRead where
  a : Nat
  c : Nat
  g : Nat
  t : Nat
deriving DecidableEq

/-- The counters after the reset `for (rg=1; rg<5; rg++) nuc_read[rg] = 0;`. -/
def NucRead.zero : NucRead := ⟨0, 0, 0, 0⟩

/-- Slot-wise sum of two quartets. -/
def NucRead.add (x y : NucRead) : NucRead := ⟨x.a + y.a, x.c + y.c, x.g + y.g, x.t + y.t⟩

/-- The variables the read-string scan carries from one character to the next. -/
structure Scan where
  nuc_read : NucRead
  indel : Bool
  end_ng_indel : Int
deriving DecidableEq

/-! ## The pileup field decoder (lines 164-216) -/

/-- The test `0 <= (ch - '0') && (ch - '0') <= 9` of line 186. -/
def isDigit (ch : Char) : Bool := decide (48 ≤ ch.toNat) && decide (ch.toNat ≤ 57)

/-- The digit accumulation of `strtol` on a string without sign or leading blanks: the
value of the leading run of decimal digits. -/
def atoiAux : Nat → List Char → Nat
  | acc, [] => acc
  | acc, ch :: rest => if isDigit ch then atoiAux (10 * acc + (ch.toNat - 48)) rest else acc

/-- The value of the leading run of decimal digits of a string; the empty run gives 0. -/
def decimalValue (s : List Char) : Nat := atoiAux 0 s

/-- The conversion of an integer to `int`: the value of its low 32 bits in two's
complement, between `-2^31` and `2^31 - 1`. -/
def wrapInt (x : Int) : Int := (x + 2147483648) % 4294967296 - 2147483648

/-- The call `strtol(s, NULL, 10)` on a string of digits: the value of the digits, or
`LONG_MAX = 2^63 - 1` when the value is above it. -/
def strtol (s : List Char) : Int := min (decimalValue s : Int) 9223372036854775807

/-- The call `atoi(s_size_indel.c_str())` of line 193, that is `(int) strtol(...)`;
`s_size_indel` holds decimal digits only. -/
def atoi (s : List Char) : Int := wrapInt (strtol s)

/-- The loop `while (find_size == 1)` of lines 185-192, started with the given `nag` and
`s_size_indel`; it returns the final `(s_size_indel, nag)`, or `none` when `nr.at(ng+nag)`
is out of range. The first argument bounds the number of iterations; `nr.length` of them
are never used up (`findSize_eq_digitRun`). -/
def findSize (nr : List Char) (ng : Nat) : Nat → Nat → List Char → Option (List Char × Nat)
  | 0, _, _ => none
  | fuel + 1, nag, s_size_indel =>
    match nr[ng + nag]? with
    | none => none
    | some ch =>
      if isDigit ch then findSize nr ng fuel (nag + 1) (s_size_indel ++ [ch])
      else some (s_size_indel, nag)

/-- Lines 170-178: a reference match credits the counter named by `m_ref_nuc`, when it is
exactly one of "A", "C", "G", "T". -/
def refMatch (m_ref_nuc : List Char) (n : NucRead) : NucRead :=
  if m_ref_nuc = ['A'] then { n with a := n.a + 1 }
  else if m_ref_nuc = ['C'] then { n with c := n.c + 1 }
  else if m_ref_nuc = ['G'] then { n with g := n.g + 1 }
  else if m_ref_nuc = ['T'] then { n with t := n.t + 1 }
  else n

/-- Lines 203-211: a base letter of either case credits its counter. -/
def countBase (ch : Char) (n : NucRead) : NucRead :=
  if ch = 'A' ∨ ch = 'a' then { n with a := n.a + 1 }
  else if ch = 'C' ∨ ch = 'c' then { n with c := n.c + 1 }
  else if ch = 'G' ∨ ch = 'g' then { n with g := n.g + 1 }
  else if ch = 'T' ∨ ch = 't' then { n with t := n.t + 1 }
  else n

/-- Lines 180-197: at `+` or `-` the indel flag is raised and the end offset computed, in
`int`, from the digit run that follows; `none` when the digit scan leaves the string. -/
def indelStart (nr : List Char) (ng : Nat) (ch : Char) (st : Scan) : Option Scan :=
  if ch = '+' ∨ ch = '-' then
    match findSize nr ng nr.length 1 [] with
    | none => none
    | some (s_size_indel, nag) =>
      some { st with indel := true,
                     end_ng_indel := wrapInt ((ng : Int) + ((nag : Int) - 1) + atoi s_size_indel) }
  else some st

/-- Lines 198-200: past the end offset the indel flag is cleared. -/
def indelEnd (ng : Nat) (st : Scan) : Scan :=
  if st.indel = true ∧ (ng : Int) > st.end_ng_indel then { st with indel := false } else st

/-- Lines 201-213: outside an indel, a character not preceded by `^` is counted. -/
def countUnlessQuality (nr : List Char) (ng : Nat) (ch : Char) (st : Scan) : Scan :=
  if st.indel = false then
    if ng = 0 ∨ nr[ng - 1]? ≠ some '^' then { st with nuc_read := countBase ch st.nuc_read }
    else st
  else st

/-- The body of `for (ng=0; ng<length_nr; ng++)` (lines 169-214) at position `ng`, whose
character is `ch`. -/
def scanStep (m_ref_nuc nr : List Char) (ng : Nat) (ch : Char) (st : Scan) : Option Scan :=
  if ch = '.' ∨ ch = ',' then some { st with nuc_read := refMatch m_ref_nuc st.nuc_read }
  else
    match indelStart nr ng ch st with
    | none => none
    | some st1 => some (countUnlessQuality nr ng ch (indelEnd ng st1))

/-- The loop `for (ng=0; ng<length_nr; ng++)`: the first argument is the number of
iterations left, `length_nr - ng`. -/
def scanLoop (m_ref_nuc nr : List Char) : Nat → Nat → Scan → Option Scan
  | 0, _, st => some st
  | left + 1, ng, st =>
    match nr[ng]? with
    | none => some st
    | some ch =>
      match scanStep m_ref_nuc nr ng ch st with
      | none => none
      | some st1 => scanLoop m_ref_nuc nr left (ng + 1) st1

/-- Lines 160-216 for one individual: the quartet decoded from depth `dp` and read string
`nr` against the pileup record's reference base `m_ref_nuc`; `none` when the digit scan
throws. `end_ng_indel` is not initialised in the source; it is read only while `indel` is
set, which happens only together with an assignment to it (`scanLoop_end_ng_indel`). -/
def decode (m_ref_nuc : List Char) (dp : Int) (nr : List Char) : Option NucRead :=
  if dp ≥ 1 then
    (scanLoop m_ref_nuc nr nr.length 0 ⟨NucRead.zero, false, 0⟩).map Scan.nuc_read
  else some NucRead.zero

/-! ## Header, reference/pileup merge and row emission (lines 75-259)

The files are taken line by line as the stream extractions `>>` tokenise them:

* the roster `id_ind` is the list of lines of the ID file;
* a line of the reference file (after its header line) is a `RefSite`, the three values
  `r_ss >> scaffold >> site >> ref_nuc` reads;
* a line of the pileup file is a `PileupRecord`: the three values
  `m_ss >> m_scaf >> m_site >> m_ref_nuc` reads and the triples `depth read_string
  quality_string` that follow on the line.

A failed read leaves the variables it would have set unchanged: `getline` at the end of
the reference file leaves `scaffold`, `site`, `ref_nuc` at their last values, and
`m_ss >> dp >> nr >> bq` on a line with no triple left leaves `dp` and `nr` as they were.
-/

/-- One line of the reference file. -/
structure RefSite where
  scaffold : List Char
  site : Int
  ref_nuc : List Char
deriving DecidableEq

/-- One individual's fields of a pileup line. -/
structure Triple where
  dp : Int
  nr : List Char
  bq : List Char
deriving DecidableEq

/-- One line of the pileup file. -/
structure PileupRecord where
  m_scaf : List Char
  m_site : Int
  m_ref_nuc : List Char
  triples : List Triple
deriving DecidableEq

/-- The variables of `main` that live across the loops of the merge, and the text written
to `outstream` so far. -/
structure Vars where
  scaffold : List Char
  site : Int
  ref_nuc : List Char
  dp : Int
  nr : List Char
  outstream : List Char
deriving DecidableEq

/-- How a run of a loop ends: normally, by the uncaught `std::out_of_range` of
`nr.at` or `id_ind.at`, or not within the number of iterations allowed. -/
inductive Outcome (α : Type) where
  | done : α → Outcome α
  | thrown : Outcome α
  | running : Outcome α
deriving DecidableEq

/-- The conversion `%d` of `fprintf` for an `int`. -/
def printInt : Int → List Char
  | Int.ofNat n => Nat.toDigits 10 n
  | Int.negSucc n => '-' :: Nat.toDigits 10 (n + 1)

/-- The text `"%d/%d/%d/%d"` of a quartet (lines 219 and 222, without the last character). -/
def quartetText (q : NucRead) : List Char :=
  Nat.toDigits 10 q.a ++ ['/'] ++ Nat.toDigits 10 q.c ++ ['/'] ++ Nat.toDigits 10 q.g ++ ['/']
    ++ Nat.toDigits 10 q.t

/-- The loop `for(ig=0; ig<nsample-1; ig++)` of lines 102-105; the first argument is the
number of iterations left. `id_ind.at(ig)` out of range gives `none`. -/
def headerIds (id_ind : List (List Char)) : Nat → Nat → List Char → Option (List Char × Nat)
  | 0, ig, out => some (out, ig)
  | left + 1, ig, out =>
    match id_ind[ig]? with
    | none => none
    | some id => headerIds id_ind left (ig + 1) (out ++ id ++ ['\t'])

/-- Header emission, lines 100-106: the text written, or `none` when `id_ind.at(ig)` throws.
With `nsample = 0` the bound `nsample - 1` is negative and the loop body is not entered,
as with the truncated subtraction here. -/
def header (id_ind : List (List Char)) : Option (List Char) :=
  match headerIds id_ind (id_ind.length - 1) 0 "scaffold\tsite\tref_nuc\t".toList with
  | none => none
  | some (out, ig) =>
    match id_ind[ig]? with
    | none => none
    | some id => some (out ++ id ++ ['\n'])

/-- The character that ends the quartet of individual `ig` (lines 218-224, 232-238). -/
def quartetEnd (nsample ig : Nat) : Char :=
  if (ig : Int) = (nsample : Int) - 1 then '\n' else '\t'

/-- The line `m_ss >> dp >> nr >> bq;` (line 163) on the triples left on the pileup line:
the variables after it and the triples left then. With no triple left the extraction
fails and `dp`, `nr` keep their values. -/
def readTriple (m_ss : List Triple) (v : Vars) : Vars × List Triple :=
  match m_ss with
  | [] => (v, [])
  | x :: rest => ({ v with dp := x.dp, nr := x.nr }, rest)

/-- The loop `for(ig=0; ig<nsample; ig++)` of lines 158-225 over the rest `m_ss` of the
pileup line; the first argument is the number of iterations left. `none` when decoding
throws. -/
def sampleLoop (m_ref_nuc : List Char) (nsample : Nat) :
    Nat → Nat → List Triple → Vars → Option Vars
  | 0, _, _, v => some v
  | left + 1, ig, m_ss, v =>
    let v1 : Vars := (readTriple m_ss v).1
    match decode m_ref_nuc v1.dp v1.nr with
    | none => none
    | some q =>
      sampleLoop m_ref_nuc nsample left (ig + 1) (readTriple m_ss v).2
        { v1 with outstream := v1.outstream ++ quartetText q ++ [quartetEnd nsample ig] }

/-- The loops `for(ig=0; ig<nsample; ig++)` of lines 231-239 and 250-258. -/
def zeroLoop (nsample : Nat) : Nat → Nat → List Char → List Char
  | 0, _, out => out
  | left + 1, ig, out =>
    zeroLoop nsample left (ig + 1) (out ++ "0/0/0/0".toList ++ [quartetEnd nsample ig])

/-- The lines `getline(r_inputFile, r_line); r_ss >> scaffold >> site >> ref_nuc;`. -/
def readRef (r_inputFile : List RefSite) (v : Vars) : Vars × List RefSite :=
  match r_inputFile with
  | [] => (v, [])
  | r :: rest => ({ v with scaffold := r.scaffold, site := r.site, ref_nuc := r.ref_nuc }, rest)

/-- The reference columns `"%s\t%d\t%s\t"` of lines 156, 228 and 247. -/
def refColumns (v : Vars) : List Char :=
  v.scaffold ++ ['\t'] ++ printInt v.site ++ ['\t'] ++ v.ref_nuc ++ ['\t']

/-- One pass of the body of `while (read == 1)`, lines 150-240: the new value of `read`
(`false` for 0), the variables and the rest of the reference file; `none` when decoding
throws. -/
def siteStep (nsample : Nat) (m : PileupRecord) (r_inputFile : List RefSite) (v : Vars) :
    Option (Bool × Vars × List RefSite) :=
  let (v1, rest) := readRef r_inputFile v
  let v2 : Vars := { v1 with outstream := v1.outstream ++ refColumns v1 }
  if v1.scaffold = m.m_scaf ∧ v1.site = m.m_site then
    match sampleLoop m.m_ref_nuc nsample nsample 0 m.triples v2 with
    | none => none
    | some v3 => some (false, v3, rest)
  else
    some (true, { v2 with outstream := zeroLoop nsample nsample 0 v2.outstream }, rest)

/-- The loop `while (read == 1)` of lines 149-241 for one pileup line, allowed `fuel`
passes. -/
def findSite (nsample : Nat) (m : PileupRecord) :
    Nat → List RefSite → Vars → Outcome (Vars × List RefSite)
  | 0, _, _ => Outcome.running
  | fuel + 1, r_inputFile, v =>
    match siteStep nsample m r_inputFile v with
    | none => Outcome.thrown
    | some (true, v1, rest) => findSite nsample m fuel rest v1
    | some (false, v1, rest) => Outcome.done (v1, rest)

/-- The loop `while ( getline(m_inputFile, m_line) )` of lines 145-242; each pileup line
allows its `while (read == 1)` loop `fuel` passes. -/
def mergeLoop (nsample fuel : Nat) :
    List PileupRecord → List RefSite → Vars → Outcome (Vars × List RefSite)
  | [], r_inputFile, v => Outcome.done (v, r_inputFile)
  | m :: m_inputFile, r_inputFile, v =>
    match findSite nsample m fuel r_inputFile v with
    | Outcome.done (v1, rest) => mergeLoop nsample fuel m_inputFile rest v1
    | Outcome.thrown => Outcome.thrown
    | Outcome.running => Outcome.running

/-- The loop `while ( getline(r_inputFile, r_line) )` of lines 243-259. -/
def drain (nsample : Nat) : List RefSite → Vars → Vars
  | [], v => v
  | r :: rest, v =>
    let v1 : Vars := { v with scaffold := r.scaffold, site := r.site, ref_nuc := r.ref_nuc }
    drain nsample rest
      { v1 with outstream := zeroLoop nsample nsample 0 (v1.outstream ++ refColumns v1) }

/-- The variables before the merge: the strings are empty, `site` and `dp` are not
initialised in the source and hold the given values, and the header has been written. -/
def initVars (site dp : Int) (out : List Char) : Vars := ⟨[], site, [], dp, [], out⟩

/-- Lines 75-265: the text written to the output file by a run on roster `id_ind`, reference
lines `r_inputFile` (without the header line) and pileup lines `m_inputFile`, with `fuel`
passes allowed to each `while (read == 1)` loop; `site` and `dp` are the values the two
uninitialised variables happen to hold. -/
def mpileup2pro (fuel : Nat) (site dp : Int) (id_ind : List (List Char))
    (r_inputFile : List RefSite) (m_inputFile : List PileupRecord) : Outcome (List Char) :=
  match header id_ind with
  | none => Outcome.thrown
  | some out =>
    match mergeLoop id_ind.length fuel m_inputFile r_inputFile (initVars site dp out) with
    | Outcome.done (v, rest) => Outcome.done (drain id_ind.length rest v).outstream
    | Outcome.thrown => Outcome.thrown
    | Outcome.running => Outcome.running

/-- The data row the specification gives for a reference site and the quartets of the
individuals: scaffold, position and base, then the quartets, all joined by TAB, then
NEWLINE. -/
def specRow (r : RefSite) (qs : List NucRead) : List Char :=
  r.scaffold ++ ['\t'] ++ printInt r.site ++ ['\t'] ++ r.ref_nuc ++ ['\t']
    ++ List.intercalate ['\t'] (qs.map quartetText) ++ ['\n']

/-- The header line the specification gives for a roster. -/
def specHeader (id_ind : List (List Char)) : List Char :=
  "scaffold".toList ++ ['\t'] ++ "site".toList ++ ['\t'] ++ "ref_nuc".toList ++ ['\t']
    ++ List.intercalate ['\t'] id_ind ++ ['\n']

/-! ## The scan as a walk over the rest of the string

The position-indexed loop is restated over the position `ng` and the characters still to
be read from it: the end offset becomes the number `skip` of coming characters that lie
inside the indel span, and the look-behind `nr.substr(ng-1, 1)` becomes the flag `caret`.
`scanLoop_eq_walk` proves the two agree; the properties are then proved on `walk`. -/

/-- The decimal digits at the head of a string that does not end with them; `none` when
the digits run to the end of the string. -/
def digitRun : List Char → Option (List Char)
  | [] => none
  | ch :: rest => if isDigit ch then (digitRun rest).map (ch :: ·) else some []

/-- The number of characters after a sign at position `ng` that the `int` end offset
computed from the digit run `ds` puts inside the indel: none when the sum wraps below
`ng`. -/
def indelSpan (ng : Nat) (ds : List Char) : Nat :=
  (wrapInt ((ng : Int) + (ds.length : Int) + atoi ds) - (ng : Int)).toNat

/-- The scan from position `ng` over the characters still to be read. -/
def walk (m_ref_nuc : List Char) : Nat → Bool → Nat → NucRead → List Char → Option NucRead
  | _, _, _, n, [] => some n
  | ng, caret, skip, n, ch :: rest =>
    if ch = '.' ∨ ch = ',' then
      walk m_ref_nuc (ng + 1) false (skip - 1) (refMatch m_ref_nuc n) rest
    else if ch = '+' ∨ ch = '-' then
      match digitRun rest with
      | none => none
      | some ds => walk m_ref_nuc (ng + 1) false (indelSpan ng ds) n rest
    else if skip = 0 then
      walk m_ref_nuc (ng + 1) (decide (ch = '^')) 0
        (if caret = true then n else countBase ch n) rest
    else walk m_ref_nuc (ng + 1) (decide (ch = '^')) (skip - 1) n rest

/-- The look-behind of line 202 at position `ng`: the previous character exists and is `^`. -/
def caretAt (nr : List Char) (ng : Nat) : Bool := decide (¬ (ng = 0 ∨ nr[ng - 1]? ≠ some '^'))

/-- Number of characters from position `ng` on that the scan state holds inside an indel. -/
def skipAt (st : Scan) (ng : Nat) : Nat :=
  if st.indel = true then (st.end_ng_indel + 1 - (ng : Int)).toNat else 0

/-! ## Definitions used to state and prove the properties -/

/-- The look-behind flag after reading the characters of `p`, when it was `caret` before. -/
def endsCaret : Bool → List Char → Bool
  | caret, [] => caret
  | _, ch :: rest => endsCaret (decide (ch = '^')) rest

/-- The characters an indel span is written with in a pileup read string. -/
def indelAlphabet : List Char := ['A', 'C', 'G', 'T', 'N', 'a', 'c', 'g', 't', 'n', '*', '#']

/-- The quartet of a read string without `+`, `-`, `^` by counting: the letters of
either case, plus the `.` and `,` in the slot named by a reference base that is exactly
"A", "C", "G" or "T". -/
def markerFreeCounts (r s : List Char) : NucRead :=
  let m := s.count '.' + s.count ','
  ⟨s.count 'A' + s.count 'a' + (if r = ['A'] then m else 0),
   s.count 'C' + s.count 'c' + (if r = ['C'] then m else 0),
   s.count 'G' + s.count 'g' + (if r = ['G'] then m else 0),
   s.count 'T' + s.count 't' + (if r = ['T'] then m else 0)⟩

/-- Each of `a`, `c`, `g`, `t` replaced by its upper-case letter; every other character
is left as it is. -/
def upperBase (ch : Char) : Char :=
  if ch = 'a' then 'A' else if ch = 'c' then 'C' else if ch = 'g' then 'G'
  else if ch = 't' then 'T' else ch

/-- The key `(scaffold, position)` of a reference line. -/
def RefSite.key (r : RefSite) : List Char × Int := (r.scaffold, r.site)

/-- The key `(scaffold, position)` of a pileup line. -/
def PileupRecord.key (m : PileupRecord) : List Char × Int := (m.m_scaf, m.m_site)

/-- The current `dp` and `nr` do not make the decoder throw. -/
def Decodes (v : Vars) : Prop := decode [] v.dp v.nr ≠ none

/-- What the merge writes for a reference line: the all-zero row, or the row of quartets
of a pileup line of `P` with the same key. -/
def RowOf (P : List PileupRecord) (nsample : Nat) (r : RefSite) (row : List Char) : Prop :=
  row = specRow r (List.replicate nsample NucRead.zero) ∨
    ∃ m ∈ P, m.key = r.key ∧ ∃ qs : List NucRead, qs.length = nsample ∧ row = specRow r qs

/-- A roster of two individuals, for the examples. -/
def exampleRoster : List (List Char) := ["S1".toList, "S2".toList]

/-- Three reference lines `chr1 1 A`, `chr1 2 C`, `chr1 3 G`, for the examples. -/
def exampleRefs : List RefSite :=
  [⟨"chr1".toList, 1, ['A']⟩, ⟨"chr1".toList, 2, ['C']⟩, ⟨"chr1".toList, 3, ['G']⟩]

/-- The pileup line `chr1 2 C 3 .,t II! 0 * *`, for the examples. -/
def examplePileup : List PileupRecord :=
  [⟨"chr1".toList, 2, ['C'], [⟨3, ".,t".toList, "II!".toList⟩, ⟨0, ['*'], ['*']⟩]⟩]

/-- The indel sizes declared in a read string: the values of the runs of decimal digits
that follow its `+` and `-` characters, in order. -/
def declaredSizes : List Char → List Nat
  | [] => []
  | ch :: rest =>
    if ch = '+' ∨ ch = '-' then
      match digitRun rest with
      | none => declaredSizes rest
      | some ds => decimalValue ds :: declaredSizes rest
    else declaredSizes rest

/-- The read string ends with a `+` or `-` followed only by decimal digits (possibly none)
up to its end. -/
def OpenIndel (nr : List Char) : Prop :=
  ∃ (pre : List Char) (sign : Char) (ds : List Char),
    nr = pre ++ sign :: ds ∧ (sign = '+' ∨ sign = '-') ∧ ∀ ch ∈ ds, isDigit ch = true

/-- The quartet with `k` in the slot named by a reference base that is exactly "A", "C",
"G" or "T", and zero elsewhere. -/
def refSlot (m_ref_nuc : List Char) (k : Nat) : NucRead :=
  ⟨if m_ref_nuc = ['A'] then k else 0, if m_ref_nuc = ['C'] then k else 0,
   if m_ref_nuc = ['G'] then k else 0, if m_ref_nuc = ['T'] then k else 0⟩

/-! ## The loop over positions and the walk agree -/

theorem findSize_eq_digitRun (nr : List Char) (ng : Nat) :
    ∀ (fuel nag : Nat) (s : List Char), nr.length < ng + nag + fuel →
      findSize nr ng fuel nag s
        = (digitRun (nr.drop (ng + nag))).map (fun ds => (s ++ ds, nag + ds.length)) := by
  intro fuel
  induction fuel with
  | zero =>
    intro nag s h
    have hd : nr.drop (ng + nag) = [] := List.drop_of_length_le (by omega)
    simp [findSize, hd, digitRun]
  | succ fuel ih =>
    intro nag s h
    by_cases hlt : ng + nag < nr.length
    · have hd : nr.drop (ng + nag) = nr[ng + nag] :: nr.drop (ng + nag + 1) :=
        List.drop_eq_getElem_cons hlt
      have hg : nr[ng + nag]? = some nr[ng + nag] := List.getElem?_eq_getElem hlt
      rw [findSize, hg, hd, digitRun]
      by_cases hdig : isDigit nr[ng + nag] = true
      · simp only [hdig, if_true]
        rw [ih (nag + 1) (s ++ [nr[ng + nag]]) (by omega), Nat.add_assoc ng nag 1]
        cases digitRun (nr.drop (ng + (nag + 1))) with
        | none => rfl
        | some ds => simp [Nat.add_comm, Nat.add_left_comm]
      · simp [hdig]
    · have hd : nr.drop (ng + nag) = [] := List.drop_of_length_le (by omega)
      have hg : nr[ng + nag]? = none := List.getElem?_eq_none (by omega)
      rw [findSize, hg, hd]
      rfl

theorem countBase_sign (ch : Char) (h : ch = '+' ∨ ch = '-') (n : NucRead) :
    countBase ch n = n := by
  rcases h with h | h <;> subst h <;> simp [countBase]

/-- The state after the body of the loop at a sign whose end offset is `e`: the counters
are as before, and the characters that follow are inside the indel up to offset `e`. -/
theorem sign_step (nr : List Char) (ng : Nat) (ch : Char) (h : ch = '+' ∨ ch = '-')
    (n : NucRead) (e : Int) :
    (countUnlessQuality nr ng ch (indelEnd ng ⟨n, true, e⟩)).nuc_read = n ∧
      skipAt (countUnlessQuality nr ng ch (indelEnd ng ⟨n, true, e⟩)) (ng + 1)
        = (e - (ng : Int)).toNat := by
  by_cases hgt : (ng : Int) > e
  · have he : indelEnd ng (⟨n, true, e⟩ : Scan) = ⟨n, false, e⟩ := by
      simp only [indelEnd]
      rw [if_pos ⟨trivial, hgt⟩]
    rw [he]
    simp only [countUnlessQuality, if_true, countBase_sign ch h]
    split
    · refine ⟨rfl, ?_⟩
      simp only [skipAt, Bool.false_eq_true, if_false]
      omega
    · refine ⟨rfl, ?_⟩
      simp only [skipAt, Bool.false_eq_true, if_false]
      omega
  · have he : indelEnd ng (⟨n, true, e⟩ : Scan) = ⟨n, true, e⟩ := by
      simp only [indelEnd]
      rw [if_neg (fun hh => hgt hh.2)]
    rw [he]
    simp only [countUnlessQuality, Bool.true_eq_false, if_false, skipAt, if_true, true_and]
    omega

theorem scanLoop_eq_walk (m_ref_nuc nr : List Char) :
    ∀ (left ng : Nat) (st : Scan), ng + left = nr.length →
      (scanLoop m_ref_nuc nr left ng st).map Scan.nuc_read
        = walk m_ref_nuc ng (caretAt nr ng) (skipAt st ng) st.nuc_read (nr.drop ng) := by
  intro left
  induction left with
  | zero =>
    intro ng st h
    have hd : nr.drop ng = [] := List.drop_of_length_le (by omega)
    simp [scanLoop, hd, walk]
  | succ left ih =>
    intro ng st h
    have hlt : ng < nr.length := by omega
    have hd : nr.drop ng = nr[ng] :: nr.drop (ng + 1) := List.drop_eq_getElem_cons hlt
    have hg : nr[ng]? = some nr[ng] := List.getElem?_eq_getElem hlt
    have hc : caretAt nr (ng + 1) = decide (nr[ng] = '^') := by
      simp [caretAt, hg]
    rw [scanLoop, hg, hd, walk]
    simp only [scanStep]
    by_cases h1 : nr[ng] = '.' ∨ nr[ng] = ','
    · have hne : ¬ nr[ng] = '^' := by
        rcases h1 with h1 | h1 <;> rw [h1] <;> decide
      simp only [h1, if_true]
      rw [ih (ng + 1) _ (by omega), hc]
      have hs : skipAt { st with nuc_read := refMatch m_ref_nuc st.nuc_read } (ng + 1)
          = skipAt st ng - 1 := by
        simp only [skipAt]; split <;> omega
      rw [hs]
      simp [hne]
    · simp only [h1, if_false]
      by_cases h2 : nr[ng] = '+' ∨ nr[ng] = '-'
      · have hne : ¬ nr[ng] = '^' := by
          rcases h2 with h2 | h2 <;> rw [h2] <;> decide
        have hI : indelStart nr ng nr[ng] st = (digitRun (nr.drop (ng + 1))).map
            (fun ds => (⟨st.nuc_read, true,
              wrapInt ((ng : Int) + (ds.length : Int) + atoi ds)⟩ : Scan)) := by
          simp only [indelStart, h2, if_true]
          rw [findSize_eq_digitRun nr ng nr.length 1 [] (by omega)]
          cases digitRun (nr.drop (ng + 1)) with
          | none => rfl
          | some ds =>
            simp only [Option.map_some', List.nil_append, Option.some.injEq, Scan.mk.injEq,
              true_and]
            congr 1
            push_cast
            omega
        rw [hI]
        simp only [h2, if_true]
        cases hdr : digitRun (nr.drop (ng + 1)) with
        | none => rfl
        | some ds =>
          simp only [Option.map_some']
          obtain ⟨e1, e2⟩ := sign_step nr ng nr[ng] h2 st.nuc_read
            (wrapInt ((ng : Int) + (ds.length : Int) + atoi ds))
          rw [ih (ng + 1) _ (by omega), hc, e1, e2]
          simp [hne, indelSpan]
      · have hI : indelStart nr ng nr[ng] st = some st := by
          simp only [indelStart, h2, if_false]
        rw [hI]
        simp only [h2, if_false]
        by_cases h3 : skipAt st ng = 0
        · have he : (indelEnd ng st).indel = false ∧ (indelEnd ng st).nuc_read = st.nuc_read := by
            simp only [indelEnd]
            simp only [skipAt] at h3
            split
            · exact ⟨rfl, rfl⟩
            · rename_i hh
              refine ⟨?_, rfl⟩
              cases hi : st.indel with
              | false => rfl
              | true =>
                rw [hi] at h3 hh
                simp only [if_true, true_and] at h3 hh
                omega
          simp only [h3, if_true]
          rw [ih (ng + 1) _ (by omega), hc]
          have hs : ∀ n e, skipAt (⟨n, false, e⟩ : Scan) (ng + 1) = 0 := by
            intro n e; simp [skipAt]
          simp only [countUnlessQuality, he.1, if_true]
          by_cases hq : ng = 0 ∨ nr[ng - 1]? ≠ some '^'
          · have hcar : caretAt nr ng = false := by simp [caretAt, hq]
            simp only [hq, if_true, hs, hcar, he.2, Bool.false_eq_true, if_false]
          · have hcar : caretAt nr ng = true := by simp [caretAt, hq]
            have hs2 : skipAt (indelEnd ng st) (ng + 1) = 0 := by simp [skipAt, he.1]
            simp only [hq, if_false, hs2, hcar, he.2, if_true]
        · have hi : st.indel = true ∧ (ng : Int) ≤ st.end_ng_indel := by
            simp only [skipAt] at h3
            cases hi : st.indel with
            | false => rw [hi] at h3; simp at h3
            | true => rw [hi] at h3; simp only [if_true] at h3; exact ⟨rfl, by omega⟩
          have he : indelEnd ng st = st := by
            simp only [indelEnd]
            rw [if_neg]
            intro hh; omega
          simp only [h3, if_false, he, countUnlessQuality, hi.1, Bool.true_eq_false]
          rw [ih (ng + 1) _ (by omega), hc]
          have hs : skipAt st (ng + 1) = skipAt st ng - 1 := by
            simp only [skipAt]; split <;> omega
          rw [hs]

theorem decode_eq_walk (m_ref_nuc : List Char) (dp : Int) (nr : List Char) :
    decode m_ref_nuc dp nr
      = if dp ≥ 1 then walk m_ref_nuc 0 false 0 NucRead.zero nr else some NucRead.zero := by
  unfold decode
  split
  · rw [scanLoop_eq_walk m_ref_nuc nr nr.length 0 _ (by omega)]
    simp [caretAt, skipAt]
  · rfl

/-- The initial value of `end_ng_indel`, which the source leaves uninitialised, has no
influence on the decoded quartet. -/
theorem scanLoop_end_ng_indel (m_ref_nuc nr : List Char) (e : Int) :
    (scanLoop m_ref_nuc nr nr.length 0 ⟨NucRead.zero, false, e⟩).map Scan.nuc_read
      = (scanLoop m_ref_nuc nr nr.length 0 ⟨NucRead.zero, false, 0⟩).map Scan.nuc_read := by
  rw [scanLoop_eq_walk m_ref_nuc nr nr.length 0 _ (by omega),
    scanLoop_eq_walk m_ref_nuc nr nr.length 0 _ (by omega)]
  rfl

/-! ## Lemmas on the walk -/

theorem endsCaret_of_getLast (p : List Char) (h : p.getLast? ≠ some '^') :
    endsCaret false p = false := by
  have key : ∀ (q : List Char) (caret : Bool),
      (q = [] → caret = false) → q.getLast? ≠ some '^' → endsCaret caret q = false := by
    intro q
    induction q with
    | nil => intro caret h0 _; exact h0 rfl
    | cons ch rest ih =>
      intro caret _ hl
      rw [endsCaret]
      apply ih
      · intro hr
        subst hr
        simpa using hl
      · intro hr
        apply hl
        cases rest with
        | nil => simp at hr
        | cons x xs => simpa [List.getLast?_cons_cons] using hr
  exact key p false (fun _ => rfl) h

/-- A stretch without `+` or `-`, entered outside an indel, is left outside an indel, and
what follows it is scanned from the counters reached at its end. -/
theorem walk_plain_stretch (m_ref_nuc : List Char) (p : List Char)
    (hp : ∀ ch ∈ p, ch ≠ '+' ∧ ch ≠ '-') :
    ∀ (ng : Nat) (caret : Bool) (n : NucRead), ∃ n1 : NucRead, ∀ r : List Char,
      walk m_ref_nuc ng caret 0 n (p ++ r)
        = walk m_ref_nuc (ng + p.length) (endsCaret caret p) 0 n1 r := by
  induction p with
  | nil => intro ng caret n; exact ⟨n, fun r => rfl⟩
  | cons ch rest ih =>
    intro ng caret n
    have hch := hp ch (List.mem_cons_self _ _)
    have hrest : ∀ x ∈ rest, x ≠ '+' ∧ x ≠ '-' := fun x hx => hp x (List.mem_cons_of_mem _ hx)
    have h2 : ¬ (ch = '+' ∨ ch = '-') := by
      intro h; rcases h with h | h
      · exact hch.1 h
      · exact hch.2 h
    have hpos : ng + (ch :: rest).length = ng + 1 + rest.length := by
      simp only [List.length_cons]; omega
    by_cases h1 : ch = '.' ∨ ch = ','
    · have hne : decide (ch = '^') = false := by
        rcases h1 with h1 | h1 <;> rw [h1] <;> decide
      obtain ⟨n1, hn1⟩ := ih hrest (ng + 1) false (refMatch m_ref_nuc n)
      refine ⟨n1, fun r => ?_⟩
      rw [List.cons_append, walk, if_pos h1, hn1 r, endsCaret, hne, hpos]
    · obtain ⟨n1, hn1⟩ := ih hrest (ng + 1) (decide (ch = '^'))
        (if caret = true then n else countBase ch n)
      refine ⟨n1, fun r => ?_⟩
      rw [List.cons_append, walk, if_neg h1, if_neg h2, if_pos rfl, hn1 r, endsCaret, hpos]

/-- Characters inside an indel span that are none of `.`, `,`, `+`, `-` are passed over
without a change to the counters. -/
theorem walk_skip (m_ref_nuc : List Char) (x : List Char)
    (hx : ∀ ch ∈ x, ch ≠ '.' ∧ ch ≠ ',' ∧ ch ≠ '+' ∧ ch ≠ '-') :
    ∀ (ng : Nat) (caret : Bool) (skip : Nat) (n : NucRead) (r : List Char),
      x.length ≤ skip →
      walk m_ref_nuc ng caret skip n (x ++ r)
        = walk m_ref_nuc (ng + x.length) (endsCaret caret x) (skip - x.length) n r := by
  induction x with
  | nil => intro ng caret skip n r _; rfl
  | cons ch rest ih =>
    intro ng caret skip n r hlen
    have hch := hx ch (List.mem_cons_self _ _)
    have hrest : ∀ y ∈ rest, y ≠ '.' ∧ y ≠ ',' ∧ y ≠ '+' ∧ y ≠ '-' :=
      fun y hy => hx y (List.mem_cons_of_mem _ hy)
    have h1 : ¬ (ch = '.' ∨ ch = ',') := by
      intro h; rcases h with h | h
      · exact hch.1 h
      · exact hch.2.1 h
    have h2 : ¬ (ch = '+' ∨ ch = '-') := by
      intro h; rcases h with h | h
      · exact hch.2.2.1 h
      · exact hch.2.2.2 h
    simp only [List.length_cons] at hlen
    have h3 : ¬ skip = 0 := by omega
    have hpos : ng + (ch :: rest).length = ng + 1 + rest.length := by
      simp only [List.length_cons]; omega
    have hsk : skip - (ch :: rest).length = skip - 1 - rest.length := by
      simp only [List.length_cons]; omega
    rw [List.cons_append, walk, if_neg h1, if_neg h2, if_neg h3,
      ih hrest _ _ _ _ _ (by omega), endsCaret, hpos, hsk]

theorem digitRun_append (ds : List Char) (hds : ∀ ch ∈ ds, isDigit ch = true)
    (ch : Char) (rest : List Char) (hch : isDigit ch = false) :
    digitRun (ds ++ ch :: rest) = some ds := by
  induction ds with
  | nil => simp [digitRun, hch]
  | cons d ds ih =>
    have hd := hds d (List.mem_cons_self _ _)
    rw [List.cons_append, digitRun, if_pos hd, ih (fun y hy => hds y (List.mem_cons_of_mem _ hy))]
    rfl

theorem digitChar_isDigit : ∀ d : Nat, d < 10 →
    isDigit (Nat.digitChar d) = true ∧ (Nat.digitChar d).toNat - 48 = d := by
  decide

/-- On a string of digits the accumulator of `atoi` is the leading part of the value. -/
theorem atoiAux_digits (l : List Char) (hl : ∀ ch ∈ l, isDigit ch = true) :
    ∀ acc : Nat, atoiAux acc l = acc * 10 ^ l.length + atoiAux 0 l := by
  induction l with
  | nil => intro acc; simp [atoiAux]
  | cons d l ih =>
    intro acc
    have hd := hl d (List.mem_cons_self _ _)
    have hrest : ∀ ch ∈ l, isDigit ch = true := fun y hy => hl y (List.mem_cons_of_mem _ hy)
    rw [atoiAux, if_pos hd, atoiAux, if_pos hd, ih hrest (10 * acc + (d.toNat - 48)),
      ih hrest (10 * 0 + (d.toNat - 48)), List.length_cons]
    ring

/-- The numeral `Nat.toDigitsCore 10` builds in front of a string of digits consists of
digits, and its value is the number. -/
theorem toDigitsCore_value :
    ∀ (fuel n : Nat) (tl : List Char), n < fuel → (∀ ch ∈ tl, isDigit ch = true) →
      (∀ ch ∈ Nat.toDigitsCore 10 fuel n tl, isDigit ch = true) ∧
        decimalValue (Nat.toDigitsCore 10 fuel n tl) = n * 10 ^ tl.length + decimalValue tl := by
  intro fuel
  induction fuel with
  | zero => intro n tl h; omega
  | succ fuel ih =>
    intro n tl hn htl
    obtain ⟨hd1, hd2⟩ := digitChar_isDigit (n % 10) (Nat.mod_lt _ (by decide))
    have hcons : ∀ ch ∈ Nat.digitChar (n % 10) :: tl, isDigit ch = true := by
      intro ch hch
      rcases List.mem_cons.mp hch with h | h
      · rw [h]; exact hd1
      · exact htl ch h
    have hval : decimalValue (Nat.digitChar (n % 10) :: tl) = (n % 10) * 10 ^ tl.length + decimalValue tl := by
      unfold decimalValue
      rw [atoiAux, if_pos hd1, atoiAux_digits tl htl, hd2]
      simp
    simp only [Nat.toDigitsCore]
    by_cases hq : n / 10 = 0
    · rw [if_pos hq]
      refine ⟨hcons, ?_⟩
      rw [hval, Nat.mod_eq_of_lt (by omega)]
    · rw [if_neg hq]
      obtain ⟨h1, h2⟩ := ih (n / 10) (Nat.digitChar (n % 10) :: tl) (by omega) hcons
      refine ⟨h1, ?_⟩
      rw [h2, hval, List.length_cons]
      have hdm := Nat.div_add_mod n 10
      calc n / 10 * 10 ^ (tl.length + 1) + (n % 10 * 10 ^ tl.length + decimalValue tl)
          = (10 * (n / 10) + n % 10) * 10 ^ tl.length + decimalValue tl := by ring
        _ = n * 10 ^ tl.length + decimalValue tl := by rw [hdm]

/-- The decimal numeral of `n` is a run of digits whose value is `n`. -/
theorem toDigits_value (n : Nat) :
    (∀ ch ∈ Nat.toDigits 10 n, isDigit ch = true) ∧ decimalValue (Nat.toDigits 10 n) = n := by
  have h := toDigitsCore_value (n + 1) n [] (by omega) (by simp)
  unfold Nat.toDigits
  refine ⟨h.1, ?_⟩
  rw [h.2]
  simp [decimalValue, atoiAux]

theorem wrapInt_small (x : Int) (h0 : 0 ≤ x) (h1 : x < 2147483648) : wrapInt x = x := by
  unfold wrapInt
  omega

/-- A declared size below `2^31` is read by `atoi` as it is written. -/
theorem atoi_small (s : List Char) (h : decimalValue s < 2147483648) :
    atoi s = (decimalValue s : Int) := by
  unfold atoi strtol
  rw [min_eq_left (by omega)]
  exact wrapInt_small _ (by omega) (by omega)

/-- While position, digits and declared size add up to less than `2^31`, the indel
spans the digits and as many characters as declared. -/
theorem indelSpan_exact (ng : Nat) (ds : List Char)
    (h : ng + ds.length + decimalValue ds < 2147483648) :
    indelSpan ng ds = ds.length + decimalValue ds := by
  unfold indelSpan
  rw [atoi_small ds (by omega), wrapInt_small _ (by omega) (by omega)]
  omega

theorem digitRun_length (l : List Char) :
    ∀ ds : List Char, digitRun l = some ds → ds.length < l.length := by
  induction l with
  | nil => intro ds h; simp [digitRun] at h
  | cons d l ih =>
    intro ds h
    rw [digitRun] at h
    by_cases hd : isDigit d = true
    · rw [if_pos hd] at h
      cases hr : digitRun l with
      | none => rw [hr] at h; simp at h
      | some ds1 =>
        rw [hr] at h
        simp only [Option.map_some', Option.some.injEq] at h
        rw [← h]
        have := ih ds1 hr
        simp only [List.length_cons]
        omega
    · rw [if_neg hd] at h
      simp only [Option.some.injEq] at h
      rw [← h]
      simp

/-- The scan of a string does not depend on the position it starts at, as long as at both
positions every declared indel size, added to the position and the length of the string,
stays below `2^31`. -/
theorem walk_shift (m_ref_nuc : List Char) (l : List Char) :
    ∀ (ng1 ng2 : Nat) (caret : Bool) (skip : Nat) (n : NucRead),
      (∀ k ∈ declaredSizes l, ng1 + l.length + k < 2147483648 ∧
        ng2 + l.length + k < 2147483648) →
      walk m_ref_nuc ng1 caret skip n l = walk m_ref_nuc ng2 caret skip n l := by
  induction l with
  | nil => intro ng1 ng2 caret skip n _; rfl
  | cons ch rest ih =>
    intro ng1 ng2 caret skip n h
    have hrest : ∀ k ∈ declaredSizes rest, ng1 + 1 + rest.length + k < 2147483648 ∧
        ng2 + 1 + rest.length + k < 2147483648 := by
      intro k hk
      have hmem : k ∈ declaredSizes (ch :: rest) := by
        rw [declaredSizes]
        split
        · split
          · exact hk
          · exact List.mem_cons_of_mem _ hk
        · exact hk
      have := h k hmem
      simp only [List.length_cons] at this
      omega
    rw [walk, walk]
    by_cases h1 : ch = '.' ∨ ch = ','
    · rw [if_pos h1, if_pos h1]
      exact ih _ _ _ _ _ hrest
    · rw [if_neg h1, if_neg h1]
      by_cases h2 : ch = '+' ∨ ch = '-'
      · rw [if_pos h2, if_pos h2]
        cases hd : digitRun rest with
        | none => rfl
        | some ds =>
          have hmem : decimalValue ds ∈ declaredSizes (ch :: rest) := by
            rw [declaredSizes, if_pos h2, hd]
            exact List.mem_cons_self _ _
          have hb := h _ hmem
          have hl := digitRun_length rest ds hd
          simp only [List.length_cons] at hb
          simp only []
          rw [indelSpan_exact ng1 ds (by omega), indelSpan_exact ng2 ds (by omega)]
          exact ih _ _ _ _ _ hrest
      · rw [if_neg h2, if_neg h2]
        by_cases h3 : skip = 0
        · rw [if_pos h3, if_pos h3]
          exact ih _ _ _ _ _ hrest
        · rw [if_neg h3, if_neg h3]
          exact ih _ _ _ _ _ hrest

theorem indelAlphabet_inert (ch : Char) (h : ch ∈ indelAlphabet) :
    (ch ≠ '.' ∧ ch ≠ ',' ∧ ch ≠ '+' ∧ ch ≠ '-') ∧ ch ≠ '^' ∧ isDigit ch = false := by
  simp only [indelAlphabet, List.mem_cons, List.mem_singleton, List.not_mem_nil, or_false] at h
  rcases h with h | h | h | h | h | h | h | h | h | h | h | h <;> subst h <;> decide

theorem isDigit_inert (ch : Char) (h : isDigit ch = true) :
    (ch ≠ '.' ∧ ch ≠ ',' ∧ ch ≠ '+' ∧ ch ≠ '-') ∧ ch ≠ '^' := by
  refine ⟨⟨?_, ?_, ?_, ?_⟩, ?_⟩ <;> intro hc <;> subst hc <;> revert h <;> decide

theorem endsCaret_append (x y : List Char) :
    ∀ caret : Bool, endsCaret caret (x ++ y) = endsCaret (endsCaret caret x) y := by
  induction x with
  | nil => intro caret; rfl
  | cons ch rest ih => intro caret; rw [List.cons_append, endsCaret, endsCaret, ih]

theorem endsCaret_no_caret (x : List Char) (hx : ∀ ch ∈ x, ch ≠ '^') :
    endsCaret false x = false := by
  induction x with
  | nil => rfl
  | cons ch rest ih =>
    have hch : decide (ch = '^') = false := by simpa using hx ch (List.mem_cons_self _ _)
    rw [endsCaret, hch]
    exact ih (fun y hy => hx y (List.mem_cons_of_mem _ hy))

/-- A complete indel (sign, digits `ds`, then as many characters `w` of the indel
alphabet as `ds` declares) that ends below position `2^31` and is followed by a character
that is not a digit is passed over as a whole. -/
theorem walk_indel (m_ref_nuc : List Char) (sign : Char) (hsign : sign = '+' ∨ sign = '-')
    (ds w t : List Char) (hds : ∀ ch ∈ ds, isDigit ch = true)
    (hw : ∀ ch ∈ w, ch ∈ indelAlphabet) (hlen : w.length = decimalValue ds)
    (hnext : ∃ ch rest, w ++ t = ch :: rest ∧ isDigit ch = false)
    (ng : Nat) (caret : Bool) (skip : Nat) (n : NucRead)
    (hfit : ng + ds.length + w.length < 2147483648) :
    walk m_ref_nuc ng caret skip n ([sign] ++ ds ++ w ++ t)
      = walk m_ref_nuc (ng + 1 + (ds ++ w).length) false 0 n t := by
  obtain ⟨ch, rest, hwt, hch⟩ := hnext
  have h1 : ¬ (sign = '.' ∨ sign = ',') := by
    rcases hsign with h | h <;> rw [h] <;> decide
  have hrun : digitRun (ds ++ (w ++ t)) = some ds := by
    rw [hwt]; exact digitRun_append ds hds ch rest hch
  have hinert : ∀ y ∈ ds ++ w, y ≠ '.' ∧ y ≠ ',' ∧ y ≠ '+' ∧ y ≠ '-' := by
    intro y hy
    rcases List.mem_append.mp hy with hy | hy
    · exact (isDigit_inert y (hds y hy)).1
    · exact (indelAlphabet_inert y (hw y hy)).1
  have hnc : ∀ y ∈ ds ++ w, y ≠ '^' := by
    intro y hy
    rcases List.mem_append.mp hy with hy | hy
    · exact (isDigit_inert y (hds y hy)).2
    · exact (indelAlphabet_inert y (hw y hy)).2.1
  have hshape : [sign] ++ ds ++ w ++ t = sign :: (ds ++ (w ++ t)) := by simp
  rw [hshape, walk, if_neg h1, if_pos hsign, hrun]
  simp only []
  rw [indelSpan_exact ng ds (by rw [← hlen]; exact hfit), ← List.append_assoc,
    walk_skip m_ref_nuc (ds ++ w) hinert (ng + 1) false _ n t
      (by rw [List.length_append, hlen]), endsCaret_no_caret _ hnc, List.length_append, hlen,
    Nat.sub_self]

/-! ## Claims on the decoder -/

/-- C1 (as stated, refuted): with reference base `A`, depth 1, empty prefix and sign `+`.
With `n = 0`, empty `w` and empty suffix `t` (which does not start with a decimal digit),
the read string is `+0`: the digit scan runs off its end and decoding fails, while
decoding the empty string gives (0,0,0,0). With `n = 1`, `w = A` and the suffix
`+2147483637A`, the read string `+1A+2147483637A` decodes to (1,0,0,0) while the suffix
alone decodes to (0,0,0,0): at position 3 the end offset `3 + 10 + 2147483637` of the
second indel is above `2^31 - 1` and wraps below the position, so the last `A` is
counted. -/
theorem indel_skip_counterexample :
    decode ['A'] 1 ([] ++ ['+'] ++ Nat.toDigits 10 0 ++ [] ++ []) = none ∧
      decode ['A'] 1 ([] ++ []) = some ⟨0, 0, 0, 0⟩ ∧
      decode ['A'] 1 ([] ++ ['+'] ++ Nat.toDigits 10 1 ++ ['A'] ++ "+2147483637A".toList)
        = some ⟨1, 0, 0, 0⟩ ∧
      decode ['A'] 1 ([] ++ "+2147483637A".toList) = some ⟨0, 0, 0, 0⟩ := by
  decide

/-- C1 (amended): with depth >= 1, for every reference base, sign `+` or `-`, `n >= 0`
written in decimal, string `w` of exactly `n` characters of the indel alphabet, prefix `p`
without `+` or `-` that does not end in `^`, and suffix `t` that, when `n = 0`, is not
empty and does not start with a decimal digit, such that the read string
`p ++ sign ++ decimal(n) ++ w ++ t` is shorter than `2^31` characters and every indel size
declared in `t`, added to the length of that read string, is below `2^31`: decoding the
read string gives the same result as decoding `p ++ t`. -/
theorem indel_skip (m_ref_nuc : List Char) (dp : Int) (sign : Char) (n : Nat)
    (w p t : List Char) (hdp : dp ≥ 1) (hsign : sign = '+' ∨ sign = '-')
    (hlen : w.length = n) (hw : ∀ ch ∈ w, ch ∈ indelAlphabet)
    (hp : ∀ ch ∈ p, ch ≠ '+' ∧ ch ≠ '-') (hlast : p.getLast? ≠ some '^')
    (ht : n = 0 → ∃ ch rest, t = ch :: rest ∧ isDigit ch = false)
    (hfit : (p ++ ([sign] ++ Nat.toDigits 10 n ++ w ++ t)).length < 2147483648)
    (hsizes : ∀ k ∈ declaredSizes t,
      k + (p ++ ([sign] ++ Nat.toDigits 10 n ++ w ++ t)).length < 2147483648) :
    decode m_ref_nuc dp (p ++ ([sign] ++ Nat.toDigits 10 n ++ w ++ t))
      = decode m_ref_nuc dp (p ++ t) := by
  obtain ⟨hds, hval⟩ := toDigits_value n
  have hnext : ∃ ch rest, w ++ t = ch :: rest ∧ isDigit ch = false := by
    cases w with
    | nil =>
      obtain ⟨ch, rest, h1, h2⟩ := ht (by simpa using hlen.symm)
      exact ⟨ch, rest, by simpa using h1, h2⟩
    | cons c w1 =>
      exact ⟨c, w1 ++ t, rfl, (indelAlphabet_inert c (hw c (List.mem_cons_self _ _))).2.2⟩
  obtain ⟨n1, hn1⟩ := walk_plain_stretch m_ref_nuc p hp 0 false NucRead.zero
  simp only [List.length_append, List.length_cons, List.length_nil] at hfit hsizes
  rw [decode_eq_walk, decode_eq_walk, if_pos hdp, if_pos hdp, hn1, hn1,
    endsCaret_of_getLast p hlast,
    walk_indel m_ref_nuc sign hsign _ w t hds hw (by rw [hlen, hval]) hnext _ _ _ _
      (by omega)]
  apply walk_shift
  intro k hk
  have := hsizes k hk
  simp only [List.length_append]
  omega

/-- C1 witness: `.+3AAA.` against reference base `A` decodes as `..` does, to (2,0,0,0). -/
theorem indel_skip_witness :
    decode ['A'] 1 (['.'] ++ (['+'] ++ Nat.toDigits 10 3 ++ ['A', 'A', 'A'] ++ ['.']))
        = decode ['A'] 1 (['.'] ++ ['.']) ∧
      decode ['A'] 1 ".+3AAA.".toList = some ⟨2, 0, 0, 0⟩ :=
  ⟨indel_skip ['A'] 1 '+' 3 ['A', 'A', 'A'] ['.'] ['.'] (by decide) (by decide) (by decide)
    (by decide) (by decide) (by decide) (fun h => absurd h (by decide)) (by decide)
    (by decide), by decide⟩

/-- C2 (the code at the failing input): against reference base `A` with depth 1 the read
string `^.,` (start of a read with mapping-quality byte `.`, then one reverse-strand match)
decodes to (2,0,0,0), while `,` alone decodes to (1,0,0,0): the mapping-quality byte
after `^` is counted as a reference match. The same happens for the quality byte `,`;
after the quality byte `^` the base call `A` is not counted, and the quality byte `+` at
the end of the string starts a digit scan that leaves the string. -/
theorem quality_byte_counted :
    decode ['A'] 1 ['^', '.', ','] = some ⟨2, 0, 0, 0⟩ ∧
      decode ['A'] 1 [','] = some ⟨1, 0, 0, 0⟩ ∧
      decode ['A'] 1 ['^', ',', ','] = some ⟨2, 0, 0, 0⟩ ∧
      decode ['A'] 1 ['^', '^', 'A'] = some ⟨0, 0, 0, 0⟩ ∧
      decode ['A'] 1 ['A'] = some ⟨1, 0, 0, 0⟩ ∧
      decode ['A'] 1 ['^', '+'] = none ∧
      decode ['A'] 1 [] = some ⟨0, 0, 0, 0⟩ := by
  decide

/-- C3 (as stated, refuted): with reference base `A`, depth 1, `q = ]` and
`t = +2147483637A`, the read string `^]+2147483637A` decodes to (1,0,0,0) while `t`
decodes to (0,0,0,0): at position 0 the end offset `0 + 10 + 2147483637` is `2^31 - 1` and
the last `A` lies inside the indel; at position 2 the sum is above `2^31 - 1`, wraps
below the position and the indel flag is cleared at once. -/
theorem quality_byte_skipped_counterexample :
    decode ['A'] 1 ('^' :: ']' :: "+2147483637A".toList) = some ⟨1, 0, 0, 0⟩ ∧
      decode ['A'] 1 "+2147483637A".toList = some ⟨0, 0, 0, 0⟩ := by
  decide

/-- C3 (amended): with depth >= 1, for every reference base, character `q` other than
`.`, `,`, `+`, `-`, `^`, and read string `t` in which every declared indel size, added to
the length of `^` ++ q ++ t, is below `2^31`, decoding `^` ++ q ++ t gives the same result
as decoding `t`; in particular `^]A` against reference base `A` decodes to exactly
(1,0,0,0). -/
theorem quality_byte_skipped (m_ref_nuc : List Char) (dp : Int) (q : Char) (t : List Char)
    (hdp : dp ≥ 1)
    (hq : q ≠ '.' ∧ q ≠ ',' ∧ q ≠ '+' ∧ q ≠ '-' ∧ q ≠ '^')
    (hsizes : ∀ k ∈ declaredSizes t, k + ('^' :: q :: t).length < 2147483648) :
    decode m_ref_nuc dp ('^' :: q :: t) = decode m_ref_nuc dp t ∧
      decode ['A'] dp ['^', ']', 'A'] = some ⟨1, 0, 0, 0⟩ := by
  have h1 : ¬ (q = '.' ∨ q = ',') := by
    intro h; rcases h with h | h
    · exact hq.1 h
    · exact hq.2.1 h
  have h2 : ¬ (q = '+' ∨ q = '-') := by
    intro h; rcases h with h | h
    · exact hq.2.2.1 h
    · exact hq.2.2.2.1 h
  have hc : decide (q = '^') = false := by simpa using hq.2.2.2.2
  have hz : countBase '^' NucRead.zero = NucRead.zero := by decide
  constructor
  · rw [decode_eq_walk, decode_eq_walk, if_pos hdp, if_pos hdp, walk,
      if_neg (by decide), if_neg (by decide), if_pos rfl, walk, if_neg h1, if_neg h2,
      if_pos rfl, hc]
    simp only [decide_True, if_true, Bool.false_eq_true, if_false]
    apply walk_shift
    intro k hk
    have := hsizes k hk
    simp only [List.length_cons] at this
    omega
  · rw [decode_eq_walk, if_pos hdp]
    decide

/-- C3 witness: `^]A` against reference base `A` with depth 1. -/
theorem quality_byte_skipped_witness :
    decode ['A'] 1 ['^', ']', 'A'] = decode ['A'] 1 ['A'] ∧
      decode ['A'] 1 ['^', ']', 'A'] = some ⟨1, 0, 0, 0⟩ :=
  quality_byte_skipped ['A'] 1 ']' ['A'] (by decide) (by decide) (by decide)

theorem refMatch_add (r : List Char) (n : NucRead) :
    refMatch r n = n.add ⟨if r = ['A'] then 1 else 0, if r = ['C'] then 1 else 0,
      if r = ['G'] then 1 else 0, if r = ['T'] then 1 else 0⟩ := by
  unfold refMatch NucRead.add
  by_cases hA : r = ['A']
  · subst hA; simp
  · by_cases hC : r = ['C']
    · subst hC; simp
    · by_cases hG : r = ['G']
      · subst hG; simp
      · by_cases hT : r = ['T']
        · subst hT; simp
        · simp [hA, hC, hG, hT]

theorem countBase_add (ch : Char) (n : NucRead) :
    countBase ch n = n.add ⟨if ch = 'A' ∨ ch = 'a' then 1 else 0,
      if ch = 'C' ∨ ch = 'c' then 1 else 0, if ch = 'G' ∨ ch = 'g' then 1 else 0,
      if ch = 'T' ∨ ch = 't' then 1 else 0⟩ := by
  unfold countBase NucRead.add
  by_cases hA : ch = 'A' ∨ ch = 'a'
  · have : ¬ (ch = 'C' ∨ ch = 'c') ∧ ¬ (ch = 'G' ∨ ch = 'g') ∧ ¬ (ch = 'T' ∨ ch = 't') := by
      rcases hA with h | h <;> subst h <;> decide
    simp [hA, this]
  · by_cases hC : ch = 'C' ∨ ch = 'c'
    · have : ¬ (ch = 'G' ∨ ch = 'g') ∧ ¬ (ch = 'T' ∨ ch = 't') := by
        rcases hC with h | h <;> subst h <;> decide
      simp [hA, hC, this]
    · by_cases hG : ch = 'G' ∨ ch = 'g'
      · have : ¬ (ch = 'T' ∨ ch = 't') := by
          rcases hG with h | h <;> subst h <;> decide
        simp [hA, hC, hG, this]
      · by_cases hT : ch = 'T' ∨ ch = 't'
        · simp [hA, hC, hG, hT]
        · simp [hA, hC, hG, hT]

theorem walk_marker_free (r : List Char) (s : List Char)
    (hs : ∀ ch ∈ s, ch ≠ '+' ∧ ch ≠ '-' ∧ ch ≠ '^') :
    ∀ (ng : Nat) (n : NucRead),
      walk r ng false 0 n s = some (n.add (markerFreeCounts r s)) := by
  induction s with
  | nil => intro ng n; simp [walk, markerFreeCounts, NucRead.add]
  | cons ch rest ih =>
    intro ng n
    obtain ⟨hp, hm, hc⟩ := hs ch (List.mem_cons_self _ _)
    have ih1 := ih (fun x hx => hs x (List.mem_cons_of_mem _ hx))
    have hcnt : ∀ c : Char, (ch :: rest).count c = rest.count c + if ch = c then 1 else 0 := by
      intro c; simp [List.count_cons]
    have h2 : ¬ (ch = '+' ∨ ch = '-') := by
      intro h; rcases h with h | h
      · exact hp h
      · exact hm h
    have hcar : decide (ch = '^') = false := by simpa using hc
    rw [walk]
    by_cases h1 : ch = '.' ∨ ch = ','
    · rw [if_pos h1, ih1, refMatch_add]
      simp only [markerFreeCounts, NucRead.add, hcnt, Option.some.injEq, NucRead.mk.injEq]
      rcases h1 with h | h <;> subst h <;> simp <;> refine ⟨?_, ?_, ?_, ?_⟩ <;>
        split_ifs <;> omega
    · rw [if_neg h1, if_neg h2, if_pos rfl, hcar, ih1]
      simp only [Bool.false_eq_true, if_false]
      rw [countBase_add]
      have hd : ¬ ch = '.' := fun h => h1 (Or.inl h)
      have hcm : ¬ ch = ',' := fun h => h1 (Or.inr h)
      simp only [markerFreeCounts, NucRead.add, hcnt, Option.some.injEq, NucRead.mk.injEq,
        hd, hcm, if_false]
      refine ⟨?_, ?_, ?_, ?_⟩ <;> split_ifs <;> first | omega | (simp_all)

/-- C4: with depth >= 1, for every reference-base string `r` and every read string `s`
without `+`, `-`, `^`, the decoded quartet is: count of `A` and `a` in `s`, plus the count
of `.` and `,` in `s` when `r` is exactly "A"; and likewise for C, G, T. -/
theorem marker_free_counts (r : List Char) (dp : Int) (s : List Char) (hdp : dp ≥ 1)
    (hs : ∀ ch ∈ s, ch ≠ '+' ∧ ch ≠ '-' ∧ ch ≠ '^') :
    decode r dp s = some
      ⟨s.count 'A' + s.count 'a' + (if r = ['A'] then s.count '.' + s.count ',' else 0),
       s.count 'C' + s.count 'c' + (if r = ['C'] then s.count '.' + s.count ',' else 0),
       s.count 'G' + s.count 'g' + (if r = ['G'] then s.count '.' + s.count ',' else 0),
       s.count 'T' + s.count 't' + (if r = ['T'] then s.count '.' + s.count ',' else 0)⟩ := by
  rw [decode_eq_walk, if_pos hdp, walk_marker_free r s hs]
  simp [NucRead.add, NucRead.zero, markerFreeCounts]

/-- C4 witness: `.,Aa$*Nc` against reference base `C`, and against `N`, which drops the
two reference matches. -/
theorem marker_free_counts_witness :
    decode ['C'] 1 ".,Aa$*Nc".toList = some ⟨2, 3, 0, 0⟩ ∧
      decode ['N'] 1 ".,Aa$*Nc".toList = some ⟨2, 1, 0, 0⟩ :=
  ⟨marker_free_counts ['C'] 1 ".,Aa$*Nc".toList (by decide) (by decide),
   marker_free_counts ['N'] 1 ".,Aa$*Nc".toList (by decide) (by decide)⟩

theorem upperBase_cases (ch : Char) :
    (upperBase ch = ch) ∨ (ch = 'a' ∧ upperBase ch = 'A') ∨ (ch = 'c' ∧ upperBase ch = 'C') ∨
      (ch = 'g' ∧ upperBase ch = 'G') ∨ (ch = 't' ∧ upperBase ch = 'T') := by
  unfold upperBase
  by_cases ha : ch = 'a'
  · right; left; exact ⟨ha, by rw [if_pos ha]⟩
  · by_cases hc : ch = 'c'
    · right; right; left; exact ⟨hc, by rw [if_neg ha, if_pos hc]⟩
    · by_cases hg : ch = 'g'
      · right; right; right; left; exact ⟨hg, by rw [if_neg ha, if_neg hc, if_pos hg]⟩
      · by_cases ht : ch = 't'
        · right; right; right; right
          exact ⟨ht, by rw [if_neg ha, if_neg hc, if_neg hg, if_pos ht]⟩
        · left; rw [if_neg ha, if_neg hc, if_neg hg, if_neg ht]

/-- Upper-casing a base letter changes none of the tests the scan makes on a character. -/
theorem upperBase_tests (ch : Char) :
    isDigit (upperBase ch) = isDigit ch ∧ (isDigit ch = true → upperBase ch = ch) ∧
      ((upperBase ch = '.' ∨ upperBase ch = ',') ↔ (ch = '.' ∨ ch = ',')) ∧
      ((upperBase ch = '+' ∨ upperBase ch = '-') ↔ (ch = '+' ∨ ch = '-')) ∧
      (decide (upperBase ch = '^') = decide (ch = '^')) ∧
      (∀ n, countBase (upperBase ch) n = countBase ch n) := by
  rcases upperBase_cases ch with h | ⟨h, hu⟩ | ⟨h, hu⟩ | ⟨h, hu⟩ | ⟨h, hu⟩
  · rw [h]; exact ⟨rfl, fun _ => rfl, Iff.rfl, Iff.rfl, rfl, fun _ => rfl⟩
  all_goals
    rw [hu]; subst h
    refine ⟨by decide, by decide, by decide, by decide, by decide, fun n => ?_⟩
    simp [countBase]

theorem digitRun_upperBase (s : List Char) : digitRun (s.map upperBase) = digitRun s := by
  induction s with
  | nil => rfl
  | cons ch rest ih =>
    obtain ⟨h1, h2, _⟩ := upperBase_tests ch
    rw [List.map_cons, digitRun, digitRun, h1, ih]
    by_cases hd : isDigit ch = true
    · rw [if_pos hd, if_pos hd, h2 hd]
    · rw [if_neg hd, if_neg hd]

theorem walk_upperBase (m_ref_nuc : List Char) (s : List Char) :
    ∀ (ng : Nat) (caret : Bool) (skip : Nat) (n : NucRead),
      walk m_ref_nuc ng caret skip n (s.map upperBase)
        = walk m_ref_nuc ng caret skip n s := by
  induction s with
  | nil => intro ng caret skip n; rfl
  | cons ch rest ih =>
    intro ng caret skip n
    obtain ⟨_, _, h3, h4, h5, h6⟩ := upperBase_tests ch
    rw [List.map_cons, walk, walk, digitRun_upperBase, h5, h6]
    simp only [h3, h4, ih]

/-- C5: for every reference base, depth and read string `s`, decoding `s` with each of
`a`, `c`, `g`, `t` replaced by its upper-case letter gives the same result as decoding
`s`; and `AaAa` decodes to (4,0,0,0) against any reference base (depth 1). -/
theorem case_insensitive (m_ref_nuc : List Char) (dp : Int) (s : List Char) :
    decode m_ref_nuc dp (s.map upperBase) = decode m_ref_nuc dp s ∧
      decode m_ref_nuc 1 ['A', 'a', 'A', 'a'] = some ⟨4, 0, 0, 0⟩ := by
  constructor
  · rw [decode_eq_walk, decode_eq_walk, walk_upperBase]
  · rw [decode_eq_walk]
    rfl

/-- C6: for every reference base, every depth < 1 and every read string, the decoded
quartet is (0,0,0,0): decoding returns it without reading the string and cannot fail. -/
theorem zero_depth (m_ref_nuc : List Char) (dp : Int) (nr : List Char) (hdp : dp < 1) :
    decode m_ref_nuc dp nr = some ⟨0, 0, 0, 0⟩ := by
  unfold decode
  rw [if_neg (by omega)]
  rfl

/-- C6 witness: depth 0 with the malformed read string `+12`, on which the scan of a
positive depth fails. -/
theorem zero_depth_witness :
    decode ['A'] 0 ['+', '1', '2'] = some ⟨0, 0, 0, 0⟩ ∧ decode ['A'] 1 ['+', '1', '2'] = none :=
  ⟨zero_depth ['A'] 0 ['+', '1', '2'] (by decide), by decide⟩

/-! ## Claims on header and rows -/

theorem intercalate_cons_cons (sep x y : List Char) (l : List (List Char)) :
    List.intercalate sep (x :: y :: l) = x ++ sep ++ List.intercalate sep (y :: l) := by
  simp [List.intercalate]

theorem intercalate_singleton (sep x : List Char) : List.intercalate sep [x] = x := by
  simp [List.intercalate]

theorem headerIds_spec (todo : List (List Char)) :
    ∀ (pre : List (List Char)) (x : List Char) (rest : List (List Char)) (out : List Char),
      ∃ text : List Char,
        headerIds (pre ++ todo ++ x :: rest) todo.length pre.length out
          = some (out ++ text, pre.length + todo.length) ∧
        text ++ List.intercalate ['\t'] (x :: rest)
          = List.intercalate ['\t'] (todo ++ x :: rest) := by
  induction todo with
  | nil => intro pre x rest out; exact ⟨[], by simp [headerIds], by simp⟩
  | cons t todo ih =>
    intro pre x rest out
    obtain ⟨text, h1, h2⟩ := ih (pre ++ [t]) x rest (out ++ t ++ ['\t'])
    have hshape : pre ++ t :: todo ++ x :: rest = pre ++ [t] ++ todo ++ x :: rest := by simp
    have hget : (pre ++ [t] ++ todo ++ x :: rest)[pre.length]? = some t := by
      rw [List.append_assoc, List.append_assoc, List.getElem?_append_right (Nat.le_refl _)]
      simp
    obtain ⟨y, l1, hyl⟩ : ∃ y l1, todo ++ x :: rest = y :: l1 := by
      cases todo with
      | nil => exact ⟨x, rest, rfl⟩
      | cons t2 todo => exact ⟨t2, todo ++ x :: rest, rfl⟩
    refine ⟨t ++ ['\t'] ++ text, ?_, ?_⟩
    · rw [List.length_cons, headerIds, hshape, hget]
      simp only []
      have hl : (pre ++ [t]).length = pre.length + 1 := by simp
      rw [hl] at h1
      rw [h1]
      simp [Nat.add_comm, Nat.add_left_comm]
    · rw [List.cons_append, hyl, intercalate_cons_cons, ← hyl, ← h2]
      simp

/-- For a roster that is not empty, header emission writes the header line of the
specification. -/
theorem header_nonempty (id_ind : List (List Char)) (hne : id_ind ≠ []) :
    header id_ind = some (specHeader id_ind) := by
  obtain ⟨todo, x, hx⟩ : ∃ todo x, id_ind = todo ++ [x] :=
    ⟨id_ind.dropLast, id_ind.getLast hne, (List.dropLast_append_getLast hne).symm⟩
  obtain ⟨text, h1, h2⟩ := headerIds_spec todo [] x [] "scaffold\tsite\tref_nuc\t".toList
  subst hx
  unfold header
  simp only [List.nil_append, List.length_nil, Nat.zero_add] at h1
  have hlen : (todo ++ [x]).length - 1 = todo.length := by simp
  rw [hlen, h1]
  simp only [List.getElem?_concat_length]
  rw [intercalate_singleton] at h2
  rw [specHeader, ← h2]
  simp

/-- C10: for every non-empty roster the header line is `scaffold` TAB `site` TAB `ref_nuc`
TAB, then the identifiers in roster order joined by single TABs, then NEWLINE; for the
empty roster header emission fails (`id_ind.at(0)` throws) and gives no header. -/
theorem header_line (id_ind : List (List Char)) :
    (id_ind ≠ [] → header id_ind = some (specHeader id_ind)) ∧ header [] = none :=
  ⟨header_nonempty id_ind, by decide⟩

/-- C10 witness: the roster `[ind1]` gives scaffold TAB site TAB ref_nuc TAB ind1 NEWLINE. -/
theorem header_line_witness :
    header ["ind1".toList] = some "scaffold\tsite\tref_nuc\tind1\n".toList :=
  (header_line ["ind1".toList]).1 (by decide)

theorem quartetEnd_last (nsample ig : Nat) (h : ig + 1 = nsample) :
    quartetEnd nsample ig = '\n' := by
  unfold quartetEnd
  rw [if_pos (by omega)]

theorem quartetEnd_inner (nsample ig left : Nat) (h : ig + (left + 2) = nsample) :
    quartetEnd nsample ig = '\t' := by
  unfold quartetEnd
  rw [if_neg (by omega)]

/-- The individuals loop on a line that carries a triple for each of the iterations left:
it writes the quartets decoded from the triples, joined by TAB and ended by NEWLINE. -/
theorem sampleLoop_triples (m_ref_nuc : List Char) (nsample : Nat) :
    ∀ (m_ss : List Triple) (t : Triple) (qs : List NucRead) (ig : Nat) (v : Vars),
      ig + (m_ss.length + 1) = nsample →
      (t :: m_ss).map (fun x => decode m_ref_nuc x.dp x.nr) = qs.map some →
      ∃ v1 : Vars, sampleLoop m_ref_nuc nsample (m_ss.length + 1) ig (t :: m_ss) v = some v1 ∧
        v1.outstream
          = v.outstream ++ List.intercalate ['\t'] (qs.map quartetText) ++ ['\n'] := by
  intro m_ss
  induction m_ss with
  | nil =>
    intro t qs ig v hig hq
    obtain ⟨q, hqs, hq1⟩ : ∃ q, qs = [q] ∧ decode m_ref_nuc t.dp t.nr = some q := by
      cases qs with
      | nil => simp at hq
      | cons q qs =>
        cases qs with
        | nil => exact ⟨q, rfl, by simpa using hq⟩
        | cons q2 qs => simp at hq
    subst hqs
    refine ⟨_, by simp only [sampleLoop, readTriple, List.length_nil, hq1]; rfl, ?_⟩
    rw [quartetEnd_last nsample ig (by simpa using hig)]
    simp [intercalate_singleton]
  | cons t2 m_ss ih =>
    intro t qs ig v hig hq
    obtain ⟨q, q2, qs2, hqs, hq1, hq2⟩ : ∃ q q2 qs2, qs = q :: q2 :: qs2 ∧
        decode m_ref_nuc t.dp t.nr = some q ∧
        (t2 :: m_ss).map (fun x => decode m_ref_nuc x.dp x.nr) = (q2 :: qs2).map some := by
      cases qs with
      | nil => simp at hq
      | cons q qs =>
        cases qs with
        | nil => simp at hq
        | cons q2 qs2 =>
          simp only [List.map_cons, List.cons.injEq] at hq
          exact ⟨q, q2, qs2, rfl, hq.1, by simp only [List.map_cons, List.cons.injEq]; exact hq.2⟩
    subst hqs
    simp only [List.length_cons] at hig
    obtain ⟨v1, h1, h2⟩ := ih t2 (q2 :: qs2) (ig + 1)
      ⟨v.scaffold, v.site, v.ref_nuc, t.dp, t.nr,
        v.outstream ++ quartetText q ++ [quartetEnd nsample ig]⟩ (by omega) hq2
    refine ⟨v1, ?_, ?_⟩
    · rw [List.length_cons, sampleLoop]
      simp only [readTriple, hq1]
      exact h1
    · rw [h2, quartetEnd_inner nsample ig m_ss.length (by omega)]
      simp only [List.map_cons, intercalate_cons_cons]
      simp

/-- C7: when the reference line read is the site of the pileup record `m`, which carries
one triple for each of the `nsample >= 1` individuals and whose read strings all decode
(to the quartets `qs`, each from its own depth and read string against the pileup
record's reference base `m_ref_nuc`), the pass ends the search (`read = 0`) and writes
exactly: scaffold TAB position TAB base of the reference line TAB, the quartets `a/c/g/t`
joined by TAB, NEWLINE. -/
theorem matched_site_row (nsample : Nat) (m : PileupRecord) (r : RefSite)
    (rest : List RefSite) (v : Vars) (qs : List NucRead)
    (hN : nsample ≥ 1) (hlen : m.triples.length = nsample)
    (hkey : r.scaffold = m.m_scaf ∧ r.site = m.m_site)
    (hq : m.triples.map (fun x => decode m.m_ref_nuc x.dp x.nr) = qs.map some) :
    ∃ v1 : Vars, siteStep nsample m (r :: rest) v = some (false, v1, rest) ∧
      v1.outstream = v.outstream ++ specRow r qs := by
  obtain ⟨t, m_ss, hts⟩ : ∃ t m_ss, m.triples = t :: m_ss := by
    cases hm : m.triples with
    | nil => rw [hm] at hlen; simp at hlen; omega
    | cons t m_ss => exact ⟨t, m_ss, rfl⟩
  rw [hts] at hq hlen
  simp only [List.length_cons] at hlen
  subst hlen
  obtain ⟨v1, h1, h2⟩ := sampleLoop_triples m.m_ref_nuc (m_ss.length + 1) m_ss t qs 0
    ⟨r.scaffold, r.site, r.ref_nuc, v.dp, v.nr, v.outstream ++ (r.scaffold ++ ['\t']
      ++ printInt r.site ++ ['\t'] ++ r.ref_nuc ++ ['\t'])⟩ (by omega) hq
  refine ⟨v1, ?_, ?_⟩
  · simp only [siteStep, readRef, hts, refColumns]
    rw [if_pos hkey, h1]
  · rw [h2, specRow]
    simp

/-- C7 witness: roster of two, reference line `chr1 5 A`, pileup line
`chr1 5 A 2 .. ZZ 1 A X`: the row written is chr1 TAB 5 TAB A TAB 2/0/0/0 TAB 1/0/0/0 NEWLINE,
also as the data row of the whole run. -/
theorem matched_site_row_witness :
    (∃ v1 : Vars,
      siteStep 2 ⟨"chr1".toList, 5, ['A'], [⟨2, "..".toList, "ZZ".toList⟩, ⟨1, ['A'], ['X']⟩]⟩
          [⟨"chr1".toList, 5, ['A']⟩] (initVars 0 0 []) = some (false, v1, []) ∧
        v1.outstream = [] ++ specRow ⟨"chr1".toList, 5, ['A']⟩ [⟨2, 0, 0, 0⟩, ⟨1, 0, 0, 0⟩]) ∧
      specRow ⟨"chr1".toList, 5, ['A']⟩ [⟨2, 0, 0, 0⟩, ⟨1, 0, 0, 0⟩]
        = "chr1\t5\tA\t2/0/0/0\t1/0/0/0\n".toList ∧
      mpileup2pro 2 0 0 ["S1".toList, "S2".toList] [⟨"chr1".toList, 5, ['A']⟩]
          [⟨"chr1".toList, 5, ['A'], [⟨2, "..".toList, "ZZ".toList⟩, ⟨1, ['A'], ['X']⟩]⟩]
        = Outcome.done
            "scaffold\tsite\tref_nuc\tS1\tS2\nchr1\t5\tA\t2/0/0/0\t1/0/0/0\n".toList :=
  ⟨matched_site_row 2
      ⟨"chr1".toList, 5, ['A'], [⟨2, "..".toList, "ZZ".toList⟩, ⟨1, ['A'], ['X']⟩]⟩
      ⟨"chr1".toList, 5, ['A']⟩ [] (initVars 0 0 []) [⟨2, 0, 0, 0⟩, ⟨1, 0, 0, 0⟩]
      (by decide) (by decide) (by decide) (by decide),
    by decide, by decide⟩

/-! ### The whole merge -/

theorem walk_ne_none (l : List Char) :
    ∀ (m1 m2 : List Char) (g1 g2 : Nat) (c1 c2 : Bool) (s1 s2 : Nat) (n1 n2 : NucRead),
      walk m1 g1 c1 s1 n1 l ≠ none → walk m2 g2 c2 s2 n2 l ≠ none := by
  induction l with
  | nil => intro m1 m2 g1 g2 c1 c2 s1 s2 n1 n2 _; simp [walk]
  | cons ch rest ih =>
    intro m1 m2 g1 g2 c1 c2 s1 s2 n1 n2 h
    rw [walk] at h ⊢
    by_cases h1 : ch = '.' ∨ ch = ','
    · rw [if_pos h1] at h ⊢
      exact ih _ _ _ _ _ _ _ _ _ _ h
    · rw [if_neg h1] at h ⊢
      by_cases h2 : ch = '+' ∨ ch = '-'
      · rw [if_pos h2] at h ⊢
        cases hd : digitRun rest with
        | none => rw [hd] at h; exact absurd rfl h
        | some ds =>
          rw [hd] at h
          exact ih _ _ _ _ _ _ _ _ _ _ h
      · rw [if_neg h2] at h ⊢
        by_cases h3 : s1 = 0 <;> by_cases h4 : s2 = 0
        · rw [if_pos h3] at h; rw [if_pos h4]; exact ih _ _ _ _ _ _ _ _ _ _ h
        · rw [if_pos h3] at h; rw [if_neg h4]; exact ih _ _ _ _ _ _ _ _ _ _ h
        · rw [if_neg h3] at h; rw [if_pos h4]; exact ih _ _ _ _ _ _ _ _ _ _ h
        · rw [if_neg h3] at h; rw [if_neg h4]; exact ih _ _ _ _ _ _ _ _ _ _ h

/-- Whether decoding throws does not depend on the reference base. -/
theorem decode_ne_none_ref (m1 m2 : List Char) (dp : Int) (nr : List Char)
    (h : decode m1 dp nr ≠ none) : decode m2 dp nr ≠ none := by
  rw [decode_eq_walk] at h ⊢
  by_cases hdp : dp ≥ 1
  · rw [if_pos hdp] at h ⊢
    exact walk_ne_none nr _ _ _ _ _ _ _ _ _ _ h
  · rw [if_neg hdp]
    simp

theorem readTriple_decodes (m_ref_nuc : List Char) (m_ss : List Triple) (v : Vars)
    (hm : ∀ t ∈ m_ss, decode m_ref_nuc t.dp t.nr ≠ none) (hv : Decodes v) :
    Decodes (readTriple m_ss v).1 ∧
      (∀ t ∈ (readTriple m_ss v).2, decode m_ref_nuc t.dp t.nr ≠ none) ∧
      (readTriple m_ss v).1.outstream = v.outstream := by
  cases m_ss with
  | nil => exact ⟨hv, by simp [readTriple], rfl⟩
  | cons x rest =>
    refine ⟨?_, fun t ht => hm t (List.mem_cons_of_mem _ ht), rfl⟩
    exact decode_ne_none_ref m_ref_nuc [] x.dp x.nr (hm x (List.mem_cons_self _ _))

/-- The individuals loop on any pileup line whose read strings decode, entered with `dp`
and `nr` that decode: it writes one quartet for each iteration left, joined by TAB and
ended by NEWLINE, and leaves `dp` and `nr` that decode. -/
theorem sampleLoop_any (m_ref_nuc : List Char) (nsample : Nat) :
    ∀ (left ig : Nat) (m_ss : List Triple) (v : Vars),
      ig + (left + 1) = nsample → (∀ t ∈ m_ss, decode m_ref_nuc t.dp t.nr ≠ none) →
      Decodes v →
      ∃ (v1 : Vars) (qs : List NucRead),
        sampleLoop m_ref_nuc nsample (left + 1) ig m_ss v = some v1 ∧ qs.length = left + 1 ∧
        v1.outstream
          = v.outstream ++ List.intercalate ['\t'] (qs.map quartetText) ++ ['\n'] ∧
        Decodes v1 := by
  intro left
  induction left with
  | zero =>
    intro ig m_ss v hig hm hv
    obtain ⟨h1, _, h3⟩ := readTriple_decodes m_ref_nuc m_ss v hm hv
    have h1a := decode_ne_none_ref [] m_ref_nuc _ _ h1
    obtain ⟨q, hq⟩ := Option.ne_none_iff_exists'.mp h1a
    refine ⟨⟨(readTriple m_ss v).1.scaffold, (readTriple m_ss v).1.site,
      (readTriple m_ss v).1.ref_nuc, (readTriple m_ss v).1.dp, (readTriple m_ss v).1.nr,
      (readTriple m_ss v).1.outstream ++ quartetText q ++ [quartetEnd nsample ig]⟩, [q],
      by simp only [sampleLoop, hq], rfl, ?_, h1⟩
    simp only [h3, quartetEnd_last nsample ig (by omega), List.map_cons, List.map_nil,
      intercalate_singleton]
  | succ left ih =>
    intro ig m_ss v hig hm hv
    obtain ⟨h1, h2, h3⟩ := readTriple_decodes m_ref_nuc m_ss v hm hv
    have h1a := decode_ne_none_ref [] m_ref_nuc _ _ h1
    obtain ⟨q, hq⟩ := Option.ne_none_iff_exists'.mp h1a
    obtain ⟨v1, qs, e1, e2, e3, e4⟩ := ih (ig + 1) (readTriple m_ss v).2
      ⟨(readTriple m_ss v).1.scaffold, (readTriple m_ss v).1.site,
        (readTriple m_ss v).1.ref_nuc, (readTriple m_ss v).1.dp, (readTriple m_ss v).1.nr,
        (readTriple m_ss v).1.outstream ++ quartetText q ++ [quartetEnd nsample ig]⟩
      (by omega) h2 h1
    obtain ⟨q2, qs2, hqs⟩ : ∃ q2 qs2, qs = q2 :: qs2 := by
      cases qs with
      | nil => simp at e2
      | cons q2 qs2 => exact ⟨q2, qs2, rfl⟩
    refine ⟨v1, q :: qs, ?_, by simp [e2], ?_, e4⟩
    · rw [sampleLoop]
      simp only [hq]
      exact e1
    · rw [e3, hqs]
      simp only [h3, quartetEnd_inner nsample ig left (by omega), List.map_cons,
        intercalate_cons_cons]
      simp

theorem zeroLoop_spec (nsample : Nat) :
    ∀ (left ig : Nat) (out : List Char), ig + (left + 1) = nsample →
      zeroLoop nsample (left + 1) ig out
        = out ++ List.intercalate ['\t']
            ((List.replicate (left + 1) NucRead.zero).map quartetText) ++ ['\n'] := by
  intro left
  induction left with
  | zero =>
    intro ig out hig
    have hz : quartetText NucRead.zero = "0/0/0/0".toList := by decide
    simp only [zeroLoop, quartetEnd_last nsample ig (by omega), List.replicate, List.map_cons,
      List.map_nil, intercalate_singleton, hz]
  | succ left ih =>
    intro ig out hig
    have hz : quartetText NucRead.zero = "0/0/0/0".toList := by decide
    rw [zeroLoop, ih (ig + 1) _ (by omega), quartetEnd_inner nsample ig left (by omega)]
    simp only [List.replicate, List.map_cons, intercalate_cons_cons, hz]
    simp

theorem zeroRow_step (nsample : Nat) (hN : 1 ≤ nsample) (r : RefSite) (v : Vars) :
    zeroLoop nsample nsample 0
        (v.outstream ++ refColumns
          ⟨r.scaffold, r.site, r.ref_nuc, v.dp, v.nr, v.outstream⟩)
      = v.outstream ++ specRow r (List.replicate nsample NucRead.zero) := by
  obtain ⟨k, hk⟩ : ∃ k, nsample = k + 1 := ⟨nsample - 1, by omega⟩
  subst hk
  rw [zeroLoop_spec (k + 1) k 0 _ (by omega), specRow, refColumns]
  simp

/-- The search for the site of one pileup line whose key occurs among the reference
lines still to be read: it ends at the first line with that key, after an all-zero row
for each line before it and the row of the line itself. -/
theorem findSite_spec (nsample : Nat) (hN : 1 ≤ nsample) (m : PileupRecord)
    (hm : ∀ t ∈ m.triples, decode m.m_ref_nuc t.dp t.nr ≠ none) :
    ∀ (refs : List RefSite) (ks : List (List Char × Int)) (fuel : Nat) (v : Vars),
      (m.key :: ks).Sublist (refs.map RefSite.key) → refs.length < fuel → Decodes v →
      ∃ (pre : List RefSite) (r : RefSite) (rest : List RefSite) (v1 : Vars)
        (qs : List NucRead),
        refs = pre ++ r :: rest ∧ m.key = r.key ∧ ks.Sublist (rest.map RefSite.key) ∧
        findSite nsample m fuel refs v = Outcome.done (v1, rest) ∧ qs.length = nsample ∧
        v1.outstream = v.outstream
          ++ (pre.map (fun x => specRow x (List.replicate nsample NucRead.zero))).flatten
          ++ specRow r qs ∧
        Decodes v1 := by
  intro refs
  induction refs with
  | nil => intro ks fuel v hsub _ _; simp at hsub
  | cons r0 refs ih =>
    intro ks fuel v hsub hfuel hv
    obtain ⟨fuel1, hf⟩ : ∃ fuel1, fuel = fuel1 + 1 := ⟨fuel - 1, by omega⟩
    subst hf
    simp only [List.length_cons] at hfuel
    by_cases hkey : r0.scaffold = m.m_scaf ∧ r0.site = m.m_site
    · have hks : ks.Sublist (refs.map RefSite.key) := by
        rw [List.map_cons] at hsub
        rcases List.sublist_cons_iff.mp hsub with h | ⟨l, hl, h⟩
        · exact (List.sublist_cons_self _ _).trans h
        · rw [List.cons.injEq] at hl
          rw [hl.2]; exact h
      obtain ⟨k, hk⟩ : ∃ k, nsample = k + 1 := ⟨nsample - 1, by omega⟩
      obtain ⟨v1, qs, e1, e2, e3, e4⟩ := sampleLoop_any m.m_ref_nuc nsample k 0 m.triples
        ⟨r0.scaffold, r0.site, r0.ref_nuc, v.dp, v.nr, v.outstream ++ refColumns
          ⟨r0.scaffold, r0.site, r0.ref_nuc, v.dp, v.nr, v.outstream⟩⟩ (by omega) hm hv
      refine ⟨[], r0, refs, v1, qs, rfl, ?_, hks, ?_, by omega, ?_, e4⟩
      · simp only [PileupRecord.key, RefSite.key, hkey.1, hkey.2]
      · rw [findSite]
        simp only [siteStep, readRef]
        rw [if_pos hkey]
        rw [← hk] at e1
        rw [e1]
      · rw [e3, specRow, refColumns]
        simp
    · have hne : m.key ≠ r0.key := by
        intro h
        simp only [PileupRecord.key, RefSite.key, Prod.mk.injEq] at h
        exact hkey ⟨h.1.symm, h.2.symm⟩
      have hsub1 : (m.key :: ks).Sublist (refs.map RefSite.key) := by
        rw [List.map_cons] at hsub
        rcases List.sublist_cons_iff.mp hsub with h | ⟨l, hl, _⟩
        · exact h
        · rw [List.cons.injEq] at hl
          exact absurd hl.1 hne
      obtain ⟨pre, r, rest, v1, qs, e1, e2, e3, e4, e5, e6, e7⟩ := ih ks fuel1
        ⟨r0.scaffold, r0.site, r0.ref_nuc, v.dp, v.nr,
          v.outstream ++ specRow r0 (List.replicate nsample NucRead.zero)⟩
        hsub1 (by omega) hv
      refine ⟨r0 :: pre, r, rest, v1, qs, by rw [e1]; rfl, e2, e3, ?_, e5, ?_, e7⟩
      · rw [findSite]
        simp only [siteStep, readRef]
        rw [if_neg hkey]
        simp only []
        rw [zeroRow_step nsample hN r0 v]
        exact e4
      · rw [e6]
        simp

theorem rowOf_mono (m : PileupRecord) (P : List PileupRecord) (nsample : Nat)
    (used : List RefSite) (rows : List (List Char))
    (h : List.Forall₂ (RowOf P nsample) used rows) :
    List.Forall₂ (RowOf (m :: P) nsample) used rows := by
  induction h with
  | nil => exact List.Forall₂.nil
  | cons h1 _ ih =>
    refine List.Forall₂.cons ?_ ih
    rcases h1 with h1 | ⟨m1, hm1, hk, hq⟩
    · exact Or.inl h1
    · exact Or.inr ⟨m1, List.mem_cons_of_mem _ hm1, hk, hq⟩

theorem forall₂_zero_rows (P : List PileupRecord) (nsample : Nat) (pre : List RefSite) :
    List.Forall₂ (RowOf P nsample) pre
      (pre.map (fun x => specRow x (List.replicate nsample NucRead.zero))) := by
  induction pre with
  | nil => exact List.Forall₂.nil
  | cons r pre ih => exact List.Forall₂.cons (Or.inl rfl) ih

theorem forall₂_append_rows {R : RefSite → List Char → Prop} {a1 a2 : List RefSite}
    {b1 b2 : List (List Char)} (h1 : List.Forall₂ R a1 b1) (h2 : List.Forall₂ R a2 b2) :
    List.Forall₂ R (a1 ++ a2) (b1 ++ b2) := by
  induction h1 with
  | nil => exact h2
  | cons h _ ih => exact List.Forall₂.cons h ih

/-- The loop over the pileup lines, when their keys are a subsequence of the keys of the
reference lines still to be read: it ends, having written one row for each reference
line it has read. -/
theorem mergeLoop_spec (nsample fuel : Nat) (hN : 1 ≤ nsample) :
    ∀ (ms : List PileupRecord) (refs : List RefSite) (v : Vars),
      (ms.map PileupRecord.key).Sublist (refs.map RefSite.key) → refs.length < fuel →
      (∀ m ∈ ms, ∀ t ∈ m.triples, decode m.m_ref_nuc t.dp t.nr ≠ none) → Decodes v →
      ∃ (used rest : List RefSite) (v1 : Vars) (rows : List (List Char)),
        refs = used ++ rest ∧ mergeLoop nsample fuel ms refs v = Outcome.done (v1, rest) ∧
        v1.outstream = v.outstream ++ rows.flatten ∧
        List.Forall₂ (RowOf ms nsample) used rows := by
  intro ms
  induction ms with
  | nil =>
    intro refs v _ _ _ _
    exact ⟨[], refs, v, [], rfl, rfl, by simp, List.Forall₂.nil⟩
  | cons m ms ih =>
    intro refs v hsub hfuel hdec hv
    rw [List.map_cons] at hsub
    obtain ⟨pre, r, rest, v1, qs, e1, e2, e3, e4, e5, e6, e7⟩ :=
      findSite_spec nsample hN m (hdec m (List.mem_cons_self _ _)) refs _ fuel v hsub hfuel hv
    have hlen : rest.length < fuel := by
      rw [e1] at hfuel
      simp only [List.length_append, List.length_cons] at hfuel
      omega
    obtain ⟨used, rest2, v2, rows, f1, f2, f3, f4⟩ := ih rest v1 e3 hlen
      (fun m1 hm1 => hdec m1 (List.mem_cons_of_mem _ hm1)) e7
    refine ⟨pre ++ r :: used, rest2, v2,
      pre.map (fun x => specRow x (List.replicate nsample NucRead.zero))
        ++ specRow r qs :: rows, ?_, ?_, ?_, ?_⟩
    · rw [e1, f1]; simp
    · rw [mergeLoop, e4]
      exact f2
    · rw [f3, e6]; simp
    · refine forall₂_append_rows (forall₂_zero_rows _ _ pre) (List.Forall₂.cons ?_ ?_)
      · exact Or.inr ⟨m, List.mem_cons_self _ _, e2, qs, e5, rfl⟩
      · exact rowOf_mono m ms nsample used rows f4

theorem drain_spec (nsample : Nat) (hN : 1 ≤ nsample) :
    ∀ (rest : List RefSite) (v : Vars),
      (drain nsample rest v).outstream = v.outstream
        ++ (rest.map (fun x => specRow x (List.replicate nsample NucRead.zero))).flatten := by
  intro rest
  induction rest with
  | nil => intro v; simp [drain]
  | cons r rest ih =>
    intro v
    rw [drain]
    simp only []
    rw [ih, zeroRow_step nsample hN r v]
    simp

/-- The whole run, when the roster is not empty, every read string decodes and the keys of
the pileup lines are a subsequence of the keys of the reference lines: it ends normally,
and the text written is the header followed by one row for each reference line, in order. -/
theorem mpileup2pro_rows (fuel : Nat) (site dp : Int) (id_ind : List (List Char))
    (r_inputFile : List RefSite) (m_inputFile : List PileupRecord)
    (hN : 1 ≤ id_ind.length)
    (hdec : ∀ m ∈ m_inputFile, ∀ t ∈ m.triples, decode m.m_ref_nuc t.dp t.nr ≠ none)
    (hsub : (m_inputFile.map PileupRecord.key).Sublist (r_inputFile.map RefSite.key))
    (hfuel : r_inputFile.length < fuel) :
    ∃ rows : List (List Char),
      mpileup2pro fuel site dp id_ind r_inputFile m_inputFile
        = Outcome.done (specHeader id_ind ++ rows.flatten) ∧
      List.Forall₂ (RowOf m_inputFile id_ind.length) r_inputFile rows := by
  have hne : id_ind ≠ [] := by
    intro h; rw [h] at hN; simp at hN
  have hv : Decodes (initVars site dp (specHeader id_ind)) := by
    unfold Decodes initVars decode
    simp only []
    split
    · simp [scanLoop]
    · simp
  obtain ⟨used, rest, v1, rows, e1, e2, e3, e4⟩ := mergeLoop_spec id_ind.length fuel hN
    m_inputFile r_inputFile _ hsub hfuel hdec hv
  refine ⟨rows ++ rest.map (fun x => specRow x (List.replicate id_ind.length NucRead.zero)),
    ?_, ?_⟩
  · unfold mpileup2pro
    rw [header_nonempty id_ind hne]
    simp only [e2]
    rw [drain_spec id_ind.length hN, e3]
    simp [initVars]
  · rw [e1]
    exact forall₂_append_rows e4 (forall₂_zero_rows _ _ rest)

/-- C8: provided N >= 1, no read string makes the decoder fail and the keys of the pileup
lines are a subsequence of the keys of the reference lines, the run ends normally (whenever
each search loop is allowed more passes than there are reference lines) and the data rows
written after the header are exactly one per reference line, in the order of the reference
file: the rows are as many as the reference lines, and the row of a line is its scaffold,
position and base followed by N quartets. -/
theorem one_row_per_site (fuel : Nat) (site dp : Int) (id_ind : List (List Char))
    (r_inputFile : List RefSite) (m_inputFile : List PileupRecord)
    (hN : 1 ≤ id_ind.length)
    (hdec : ∀ m ∈ m_inputFile, ∀ t ∈ m.triples, decode m.m_ref_nuc t.dp t.nr ≠ none)
    (hsub : (m_inputFile.map PileupRecord.key).Sublist (r_inputFile.map RefSite.key))
    (hfuel : r_inputFile.length < fuel) :
    ∃ rows : List (List Char),
      mpileup2pro fuel site dp id_ind r_inputFile m_inputFile
        = Outcome.done (specHeader id_ind ++ rows.flatten) ∧
      rows.length = r_inputFile.length ∧
      List.Forall₂ (fun r row => ∃ qs : List NucRead, qs.length = id_ind.length ∧
        row = specRow r qs) r_inputFile rows := by
  obtain ⟨rows, h1, h2⟩ :=
    mpileup2pro_rows fuel site dp id_ind r_inputFile m_inputFile hN hdec hsub hfuel
  refine ⟨rows, h1, h2.length_eq.symm, ?_⟩
  refine h2.imp (fun r row h => ?_)
  rcases h with h | ⟨_, _, _, qs, hq1, hq2⟩
  · exact ⟨List.replicate id_ind.length NucRead.zero, by simp, h⟩
  · exact ⟨qs, hq1, hq2⟩

/-- C8 witness: two individuals, three reference lines, one pileup line for the second of
them; the run writes the header and three rows. -/
theorem one_row_per_site_witness :
    (∃ rows : List (List Char),
      mpileup2pro 4 0 0 exampleRoster exampleRefs examplePileup
        = Outcome.done (specHeader exampleRoster ++ rows.flatten) ∧
      rows.length = exampleRefs.length ∧
      List.Forall₂ (fun r row => ∃ qs : List NucRead, qs.length = exampleRoster.length ∧
        row = specRow r qs) exampleRefs rows) ∧
    mpileup2pro 4 0 0 exampleRoster exampleRefs examplePileup
      = Outcome.done ("scaffold\tsite\tref_nuc\tS1\tS2\n".toList
          ++ "chr1\t1\tA\t0/0/0/0\t0/0/0/0\n".toList
          ++ "chr1\t2\tC\t0/2/0/1\t0/0/0/0\n".toList
          ++ "chr1\t3\tG\t0/0/0/0\t0/0/0/0\n".toList) :=
  ⟨one_row_per_site 4 0 0 exampleRoster exampleRefs examplePileup (by decide) (by decide)
    (by decide) (by decide), by decide⟩

/-- C9: under the same preconditions, the rows written after the header are one per
reference line, each with the scaffold, position and base of its line and N quartets, and
the row of every reference line whose key is the key of no pileup line (before a matched
line or after the last pileup line) is scaffold TAB position TAB base TAB, then N copies
of `0/0/0/0` joined by TAB, then NEWLINE. -/
theorem absent_site_zero_row (fuel : Nat) (site dp : Int) (id_ind : List (List Char))
    (r_inputFile : List RefSite) (m_inputFile : List PileupRecord)
    (hN : 1 ≤ id_ind.length)
    (hdec : ∀ m ∈ m_inputFile, ∀ t ∈ m.triples, decode m.m_ref_nuc t.dp t.nr ≠ none)
    (hsub : (m_inputFile.map PileupRecord.key).Sublist (r_inputFile.map RefSite.key))
    (hfuel : r_inputFile.length < fuel) :
    ∃ rows : List (List Char),
      mpileup2pro fuel site dp id_ind r_inputFile m_inputFile
        = Outcome.done (specHeader id_ind ++ rows.flatten) ∧
      List.Forall₂ (fun r row =>
        (∃ qs : List NucRead, qs.length = id_ind.length ∧ row = specRow r qs) ∧
        ((∀ m ∈ m_inputFile, m.key ≠ r.key) →
          row = r.scaffold ++ ['\t'] ++ printInt r.site ++ ['\t'] ++ r.ref_nuc ++ ['\t']
            ++ List.intercalate ['\t'] (List.replicate id_ind.length "0/0/0/0".toList)
            ++ ['\n'])) r_inputFile rows := by
  obtain ⟨rows, h1, h2⟩ :=
    mpileup2pro_rows fuel site dp id_ind r_inputFile m_inputFile hN hdec hsub hfuel
  have hz : ∀ r : RefSite, specRow r (List.replicate id_ind.length NucRead.zero)
      = r.scaffold ++ ['\t'] ++ printInt r.site ++ ['\t'] ++ r.ref_nuc ++ ['\t']
        ++ List.intercalate ['\t'] (List.replicate id_ind.length "0/0/0/0".toList)
        ++ ['\n'] := by
    intro r
    have hq : quartetText NucRead.zero = "0/0/0/0".toList := by decide
    rw [specRow, List.map_replicate, hq]
  refine ⟨rows, h1, h2.imp (fun r row h => ?_)⟩
  rcases h with h | ⟨m, hm, hk, qs, hq1, hq2⟩
  · exact ⟨⟨List.replicate id_ind.length NucRead.zero, by simp, h⟩, fun _ => by rw [h, hz]⟩
  · exact ⟨⟨qs, hq1, hq2⟩, fun hno => absurd hk (hno m hm)⟩

/-- C9 witness: in the example the first and the third reference line are in no pileup
line; their rows are all-zero. -/
theorem absent_site_zero_row_witness :
    ∃ rows : List (List Char),
      mpileup2pro 4 0 0 exampleRoster exampleRefs examplePileup
        = Outcome.done (specHeader exampleRoster ++ rows.flatten) ∧
      List.Forall₂ (fun r row =>
        (∃ qs : List NucRead, qs.length = exampleRoster.length ∧ row = specRow r qs) ∧
        ((∀ m ∈ examplePileup, m.key ≠ r.key) →
          row = r.scaffold ++ ['\t'] ++ printInt r.site ++ ['\t'] ++ r.ref_nuc ++ ['\t']
            ++ List.intercalate ['\t'] (List.replicate exampleRoster.length "0/0/0/0".toList)
            ++ ['\n'])) exampleRefs rows :=
  absent_site_zero_row 4 0 0 exampleRoster exampleRefs examplePileup (by decide) (by decide)
    (by decide) (by decide)

/-! ## Further claims on the decoder -/

theorem digitRun_eq_none (l : List Char) :
    digitRun l = none ↔ ∀ ch ∈ l, isDigit ch = true := by
  induction l with
  | nil => simp [digitRun]
  | cons d l ih =>
    rw [digitRun]
    by_cases hd : isDigit d = true
    · rw [if_pos hd, Option.map_eq_none', ih]
      simp [hd]
    · rw [if_neg hd]
      simp [hd]

theorem openIndel_nil : ¬ OpenIndel [] := by
  rintro ⟨pre, sign, ds, h, _⟩
  simp at h

theorem openIndel_cons (ch : Char) (rest : List Char) :
    OpenIndel (ch :: rest)
      ↔ ((ch = '+' ∨ ch = '-') ∧ ∀ x ∈ rest, isDigit x = true) ∨ OpenIndel rest := by
  constructor
  · rintro ⟨pre, sign, ds, h, hs, hd⟩
    cases pre with
    | nil =>
      rw [List.nil_append, List.cons.injEq] at h
      left
      rw [h.1, h.2]
      exact ⟨hs, hd⟩
    | cons p pre =>
      rw [List.cons_append, List.cons.injEq] at h
      right
      exact ⟨pre, sign, ds, h.2, hs, hd⟩
  · rintro (⟨hs, hd⟩ | ⟨pre, sign, ds, h, hs, hd⟩)
    · exact ⟨[], ch, rest, rfl, hs, hd⟩
    · exact ⟨ch :: pre, sign, ds, by rw [h]; rfl, hs, hd⟩

/-- The scan fails exactly on the strings that end with a sign followed only by digits,
whatever state it is in. -/
theorem walk_eq_none (m_ref_nuc : List Char) (l : List Char) :
    ∀ (ng : Nat) (caret : Bool) (skip : Nat) (n : NucRead),
      walk m_ref_nuc ng caret skip n l = none ↔ OpenIndel l := by
  induction l with
  | nil =>
    intro ng caret skip n
    simp [walk, openIndel_nil]
  | cons ch rest ih =>
    intro ng caret skip n
    rw [walk, openIndel_cons]
    by_cases h1 : ch = '.' ∨ ch = ','
    · have h2 : ¬ (ch = '+' ∨ ch = '-') := by
        rcases h1 with h | h <;> rw [h] <;> decide
      rw [if_pos h1, ih]
      simp [h2]
    · rw [if_neg h1]
      by_cases h2 : ch = '+' ∨ ch = '-'
      · rw [if_pos h2]
        cases hd : digitRun rest with
        | none =>
          have hall := (digitRun_eq_none rest).mp hd
          simp only [true_iff]
          exact Or.inl ⟨h2, hall⟩
        | some ds =>
          have hnd : ¬ ∀ x ∈ rest, isDigit x = true := by
            intro h
            rw [(digitRun_eq_none rest).mpr h] at hd
            exact absurd hd (by simp)
          simp only [ih]
          simp [hnd]
      · rw [if_neg h2]
        by_cases h3 : skip = 0
        · rw [if_pos h3, ih]; simp [h2]
        · rw [if_neg h3, ih]; simp [h2]

/-- C11: with depth >= 1, decoding a read string runs the digit scan off the end of the
string (`nr.at` throws, the result is `none`) exactly when the string ends with a `+` or
`-` followed only by decimal digits, possibly none, up to its end; on every other read
string a quartet is returned. -/
theorem digit_scan_out_of_range (m_ref_nuc : List Char) (dp : Int) (nr : List Char)
    (hdp : dp ≥ 1) :
    (decode m_ref_nuc dp nr = none ↔
      ∃ (pre : List Char) (sign : Char) (ds : List Char),
        nr = pre ++ sign :: ds ∧ (sign = '+' ∨ sign = '-') ∧ ∀ ch ∈ ds, isDigit ch = true) ∧
    ((¬ ∃ (pre : List Char) (sign : Char) (ds : List Char),
        nr = pre ++ sign :: ds ∧ (sign = '+' ∨ sign = '-') ∧ ∀ ch ∈ ds, isDigit ch = true) →
      ∃ q : NucRead, decode m_ref_nuc dp nr = some q) := by
  have key : decode m_ref_nuc dp nr = none ↔ OpenIndel nr := by
    rw [decode_eq_walk, if_pos hdp]
    exact walk_eq_none m_ref_nuc nr 0 false 0 NucRead.zero
  refine ⟨key, fun hno => ?_⟩
  exact Option.ne_none_iff_exists'.mp (fun h => hno (key.mp h))

/-- C11 witness: `.+12` ends with a sign and digits and fails; an indel whose declared
size exceeds the characters that remain (`+5A`) returns a quartet; a sign inside an
earlier indel span (`+3A-2`) and a sign right after `^` (`^+`) start the digit scan. -/
theorem digit_scan_out_of_range_witness :
    ((decode ['A'] 1 ".+12".toList = none ↔
      ∃ (pre : List Char) (sign : Char) (ds : List Char),
        ".+12".toList = pre ++ sign :: ds ∧ (sign = '+' ∨ sign = '-') ∧
          ∀ ch ∈ ds, isDigit ch = true) ∧
    ((¬ ∃ (pre : List Char) (sign : Char) (ds : List Char),
        ".+12".toList = pre ++ sign :: ds ∧ (sign = '+' ∨ sign = '-') ∧
          ∀ ch ∈ ds, isDigit ch = true) →
      ∃ q : NucRead, decode ['A'] 1 ".+12".toList = some q)) ∧
    decode ['A'] 1 ".+12".toList = none ∧
    decode ['A'] 1 "+5A".toList = some ⟨0, 0, 0, 0⟩ ∧
    decode ['A'] 1 "+3A-2".toList = none ∧
    decode ['A'] 1 "^+".toList = none :=
  ⟨digit_scan_out_of_range ['A'] 1 ".+12".toList (by decide), by decide, by decide, by decide,
    by decide⟩

/-- A complete indel that ends below position `2^31` and whose span `w` holds none of
`.`, `,`, `+`, `-` is passed over as a whole; what follows is scanned with the look-behind
flag the span leaves. -/
theorem walk_span (m_ref_nuc : List Char) (sign : Char) (hsign : sign = '+' ∨ sign = '-')
    (ds w t : List Char) (hds : ∀ ch ∈ ds, isDigit ch = true)
    (hw : ∀ ch ∈ w, ch ≠ '.' ∧ ch ≠ ',' ∧ ch ≠ '+' ∧ ch ≠ '-')
    (hlen : w.length = decimalValue ds)
    (hnext : ∃ ch rest, w ++ t = ch :: rest ∧ isDigit ch = false)
    (ng : Nat) (caret : Bool) (skip : Nat) (n : NucRead)
    (hfit : ng + ds.length + w.length < 2147483648) :
    walk m_ref_nuc ng caret skip n ([sign] ++ ds ++ w ++ t)
      = walk m_ref_nuc (ng + 1 + (ds.length + w.length)) (endsCaret false w) 0 n t := by
  obtain ⟨ch, rest, hwt, hch⟩ := hnext
  have h1 : ¬ (sign = '.' ∨ sign = ',') := by
    rcases hsign with h | h <;> rw [h] <;> decide
  have hrun : digitRun (ds ++ (w ++ t)) = some ds := by
    rw [hwt]; exact digitRun_append ds hds ch rest hch
  have hinert : ∀ y ∈ ds ++ w, y ≠ '.' ∧ y ≠ ',' ∧ y ≠ '+' ∧ y ≠ '-' := by
    intro y hy
    rcases List.mem_append.mp hy with hy | hy
    · exact (isDigit_inert y (hds y hy)).1
    · exact hw y hy
  have hcar : endsCaret false (ds ++ w) = endsCaret false w := by
    rw [endsCaret_append, endsCaret_no_caret ds (fun y hy => (isDigit_inert y (hds y hy)).2)]
  have hshape : [sign] ++ ds ++ w ++ t = sign :: (ds ++ (w ++ t)) := by simp
  rw [hshape, walk, if_neg h1, if_pos hsign, hrun]
  simp only []
  rw [indelSpan_exact ng ds (by rw [← hlen]; exact hfit), ← List.append_assoc,
    walk_skip m_ref_nuc (ds ++ w) hinert (ng + 1) false _ n t
      (by rw [List.length_append, hlen]), hcar, List.length_append, hlen, Nat.sub_self]

/-- An indel whose declared size is `2^32` has, in `int`, the size 0: only the ten digits
are skipped and the span itself is scanned as ordinary characters. -/
theorem walk_wrapped_span (m_ref_nuc : List Char) (c : Char) (rest t : List Char)
    (hc : isDigit c = false)
    (hs : ∀ ch ∈ c :: rest ++ t, ch ≠ '+' ∧ ch ≠ '-' ∧ ch ≠ '^') :
    decode m_ref_nuc 1 (['+'] ++ Nat.toDigits 10 4294967296 ++ (c :: rest) ++ t)
      = some (markerFreeCounts m_ref_nuc (c :: rest ++ t)) := by
  have hds : Nat.toDigits 10 4294967296
      = ['4', '2', '9', '4', '9', '6', '7', '2', '9', '6'] := by decide
  have hdig : ∀ ch ∈ ['4', '2', '9', '4', '9', '6', '7', '2', '9', '6'],
      isDigit ch = true := by decide
  have hrun := digitRun_append _ hdig c (rest ++ t) hc
  have hspan : indelSpan 0 ['4', '2', '9', '4', '9', '6', '7', '2', '9', '6'] = 10 := by
    decide
  have hshape : ['+'] ++ ['4', '2', '9', '4', '9', '6', '7', '2', '9', '6'] ++ (c :: rest) ++ t
      = '+' :: (['4', '2', '9', '4', '9', '6', '7', '2', '9', '6'] ++ c :: (rest ++ t)) := by
    simp
  rw [decode_eq_walk, if_pos (by decide), hds, hshape, walk, if_neg (by decide),
    if_pos (Or.inl rfl), hrun]
  simp only []
  rw [hspan, walk_skip m_ref_nuc _ (fun y hy => (isDigit_inert y (hdig y hy)).1) 1 false 10
      NucRead.zero (c :: (rest ++ t)) (by decide),
    endsCaret_no_caret _ (fun y hy => (isDigit_inert y (hdig y hy)).2)]
  have hlen : (['4', '2', '9', '4', '9', '6', '7', '2', '9', '6'] : List Char).length = 10 :=
    rfl
  rw [hlen, Nat.sub_self, ← List.cons_append,
    walk_marker_free m_ref_nuc (c :: rest ++ t) hs]
  simp [NucRead.add, NucRead.zero]

/-- Without a bound on the end offset of the indel the content of the span does count:
with `n = 2^32`, a span `w` of `n` letters `A` and a span `w1` of `n` letters `G`, before
the suffix `A`, decode differently. -/
theorem indel_end_offset_wraps (w w1 : List Char)
    (hw : ∀ ch ∈ w, ch = 'A') (hw1 : ∀ ch ∈ w1, ch = 'G')
    (hlen : w.length = 4294967296) (hlen1 : w1.length = 4294967296) :
    decode ['N'] 1 (['+'] ++ Nat.toDigits 10 4294967296 ++ w ++ ['A'])
      ≠ decode ['N'] 1 (['+'] ++ Nat.toDigits 10 4294967296 ++ w1 ++ ['A']) := by
  have hplain : ∀ (x : Char) (l : List Char), (x = 'A' ∨ x = 'G') → (∀ ch ∈ l, ch = x) →
      ∀ ch ∈ l ++ ['A'], ch ≠ '+' ∧ ch ≠ '-' ∧ ch ≠ '^' := by
    intro x l hx hl ch hch
    rcases List.mem_append.mp hch with h | h
    · rw [hl ch h]
      rcases hx with hx | hx <;> rw [hx] <;> decide
    · rw [List.mem_singleton] at h
      rw [h]; decide
  obtain ⟨c, rest, hc⟩ : ∃ c rest, w = c :: rest := by
    cases w with
    | nil => simp at hlen
    | cons c rest => exact ⟨c, rest, rfl⟩
  obtain ⟨c1, rest1, hc1⟩ : ∃ c1 rest1, w1 = c1 :: rest1 := by
    cases w1 with
    | nil => simp at hlen1
    | cons c1 rest1 => exact ⟨c1, rest1, rfl⟩
  have hcA : c = 'A' := hw c (by rw [hc]; exact List.mem_cons_self _ _)
  have hcG : c1 = 'G' := hw1 c1 (by rw [hc1]; exact List.mem_cons_self _ _)
  have e := walk_wrapped_span ['N'] c rest ['A'] (by rw [hcA]; decide)
    (by rw [← hc]; exact hplain 'A' w (Or.inl rfl) hw)
  have e1 := walk_wrapped_span ['N'] c1 rest1 ['A'] (by rw [hcG]; decide)
    (by rw [← hc1]; exact hplain 'G' w1 (Or.inr rfl) hw1)
  rw [← hc] at e
  rw [← hc1] at e1
  rw [e, e1]
  intro h
  have hg : (markerFreeCounts ['N'] (w ++ ['A'])).g
      = (markerFreeCounts ['N'] (w1 ++ ['A'])).g := by
    rw [Option.some.injEq] at h
    rw [h]
  have h0 : ∀ x : Char, x ≠ 'A' → (w ++ ['A']).count x = 0 := by
    intro x hx
    rw [List.count_eq_zero]
    intro hmem
    rcases List.mem_append.mp hmem with h | h
    · exact hx (hw x h)
    · rw [List.mem_singleton] at h
      exact hx h
  have h1 : (w1 ++ ['A']).count 'G' = 4294967296 := by
    rw [List.count_append, List.count_eq_length.mpr (fun b hb => (hw1 b hb).symm), hlen1]
    rfl
  simp only [markerFreeCounts] at hg
  have hN : ¬ (['N'] : List Char) = ['G'] := by decide
  rw [h0 'G' (by decide), h0 'g' (by decide), h1, if_neg hN, if_neg hN] at hg
  omega

/-- C12 (as stated, refuted): against reference base `A` with depth 1, sign `+` and n = 1,
the spans `.` and `G` (suffix empty) decode to (1,0,0,0) and (0,0,0,0); the spans `^` and
`G` before the suffix `A` decode to (0,0,0,0) and (1,0,0,0); the span `+` (suffix empty)
makes decoding fail while the span `G` does not. None of these spans starts with a
decimal digit. -/
theorem indel_content_counterexample :
    decode ['A'] 1 (['+'] ++ Nat.toDigits 10 1 ++ ['.'] ++ []) = some ⟨1, 0, 0, 0⟩ ∧
    decode ['A'] 1 (['+'] ++ Nat.toDigits 10 1 ++ ['G'] ++ []) = some ⟨0, 0, 0, 0⟩ ∧
    decode ['A'] 1 (['+'] ++ Nat.toDigits 10 1 ++ ['^'] ++ ['A']) = some ⟨0, 0, 0, 0⟩ ∧
    decode ['A'] 1 (['+'] ++ Nat.toDigits 10 1 ++ ['G'] ++ ['A']) = some ⟨1, 0, 0, 0⟩ ∧
    decode ['A'] 1 (['+'] ++ Nat.toDigits 10 1 ++ ['+'] ++ []) = none := by
  decide

/-- C12 (amended): with depth >= 1, for every reference base, sign `+` or `-`, n >= 1,
every two strings `w` and `w1` of exactly n characters neither of which starts with a
decimal digit, contains `.`, `,`, `+` or `-`, or ends in `^`, and every suffix `t`, the
end offset of the indel (the number of digits of n plus n) being below `2^31`, as it is
in every read string shorter than `2^31` characters: decoding sign ++ decimal(n) ++ w ++ t
and decoding sign ++ decimal(n) ++ w1 ++ t give the same result. -/
theorem indel_content_not_inspected (m_ref_nuc : List Char) (dp : Int) (sign : Char)
    (n : Nat) (w w1 t : List Char) (hdp : dp ≥ 1) (hsign : sign = '+' ∨ sign = '-')
    (hn : n ≥ 1) (hlen : w.length = n) (hlen1 : w1.length = n)
    (hhead : ∀ ch ∈ w.head?, isDigit ch = false) (hhead1 : ∀ ch ∈ w1.head?, isDigit ch = false)
    (hw : ∀ ch ∈ w, ch ≠ '.' ∧ ch ≠ ',' ∧ ch ≠ '+' ∧ ch ≠ '-')
    (hw1 : ∀ ch ∈ w1, ch ≠ '.' ∧ ch ≠ ',' ∧ ch ≠ '+' ∧ ch ≠ '-')
    (hlast : w.getLast? ≠ some '^') (hlast1 : w1.getLast? ≠ some '^')
    (hfit : (Nat.toDigits 10 n).length + n < 2147483648) :
    decode m_ref_nuc dp ([sign] ++ Nat.toDigits 10 n ++ w ++ t)
      = decode m_ref_nuc dp ([sign] ++ Nat.toDigits 10 n ++ w1 ++ t) := by
  obtain ⟨hds, hval⟩ := toDigits_value n
  have hnext : ∀ x : List Char, x.length = n → (∀ ch ∈ x.head?, isDigit ch = false) →
      ∃ ch rest, x ++ t = ch :: rest ∧ isDigit ch = false := by
    intro x hx hh
    cases x with
    | nil => simp at hx; omega
    | cons c x1 => exact ⟨c, x1 ++ t, rfl, hh c (by simp)⟩
  rw [decode_eq_walk, decode_eq_walk, if_pos hdp, if_pos hdp,
    walk_span m_ref_nuc sign hsign _ w t hds hw (by rw [hlen, hval]) (hnext w hlen hhead)
      0 _ _ _ (by omega),
    walk_span m_ref_nuc sign hsign _ w1 t hds hw1 (by rw [hlen1, hval])
      (hnext w1 hlen1 hhead1) 0 _ _ _ (by omega),
    endsCaret_of_getLast w hlast, endsCaret_of_getLast w1 hlast1, hlen, hlen1]

/-- C12 witness: the insertions `+2AC` and `+2gt` before the suffix `.T`. -/
theorem indel_content_not_inspected_witness :
    decode ['A'] 1 (['+'] ++ Nat.toDigits 10 2 ++ ['A', 'C'] ++ ['.', 'T'])
        = decode ['A'] 1 (['+'] ++ Nat.toDigits 10 2 ++ ['g', 't'] ++ ['.', 'T']) ∧
      decode ['A'] 1 "+2AC.T".toList = some ⟨1, 0, 0, 1⟩ :=
  ⟨indel_content_not_inspected ['A'] 1 '+' 2 ['A', 'C'] ['g', 't'] ['.', 'T'] (by decide)
    (by decide) (by decide) (by decide) (by decide) (by decide) (by decide) (by decide)
    (by decide) (by decide) (by decide) (by decide), by decide⟩

theorem NucRead.add_right_comm (n x y : NucRead) : (n.add x).add y = (n.add y).add x := by
  simp only [NucRead.add, NucRead.mk.injEq]
  refine ⟨?_, ?_, ?_, ?_⟩ <;> omega

theorem refMatch_add_right (r : List Char) (n k : NucRead) :
    refMatch r (n.add k) = (refMatch r n).add k := by
  rw [refMatch_add, refMatch_add, NucRead.add_right_comm]

theorem countBase_add_right (ch : Char) (n k : NucRead) :
    countBase ch (n.add k) = (countBase ch n).add k := by
  rw [countBase_add, countBase_add, NucRead.add_right_comm]

/-- Counters present at the start of the scan are carried to its end unchanged. -/
theorem walk_add (m_ref_nuc : List Char) (k : NucRead) (l : List Char) :
    ∀ (ng : Nat) (caret : Bool) (skip : Nat) (n : NucRead),
      walk m_ref_nuc ng caret skip (n.add k) l
        = (walk m_ref_nuc ng caret skip n l).map (fun q => q.add k) := by
  induction l with
  | nil => intro ng caret skip n; simp [walk]
  | cons ch rest ih =>
    intro ng caret skip n
    rw [walk, walk]
    by_cases h1 : ch = '.' ∨ ch = ','
    · rw [if_pos h1, if_pos h1, refMatch_add_right, ih]
    · rw [if_neg h1, if_neg h1]
      by_cases h2 : ch = '+' ∨ ch = '-'
      · rw [if_pos h2, if_pos h2]
        cases digitRun rest with
        | none => rfl
        | some ds => simp only [ih]
      · rw [if_neg h2, if_neg h2]
        by_cases h3 : skip = 0
        · rw [if_pos h3, if_pos h3]
          cases caret with
          | true => simp only [if_true, ih]
          | false => simp only [Bool.false_eq_true, if_false, countBase_add_right, ih]
        · rw [if_neg h3, if_neg h3, ih]

theorem refSlot_succ (m_ref_nuc : List Char) (n : NucRead) (k : Nat) :
    refMatch m_ref_nuc (n.add (refSlot m_ref_nuc k)) = n.add (refSlot m_ref_nuc (k + 1)) := by
  rw [refMatch_add]
  simp only [NucRead.add, refSlot, NucRead.mk.injEq]
  refine ⟨?_, ?_, ?_, ?_⟩ <;> split_ifs <;> omega

theorem refMatch_other (r0 : List Char)
    (hr0 : r0 ≠ ['A'] ∧ r0 ≠ ['C'] ∧ r0 ≠ ['G'] ∧ r0 ≠ ['T']) (n : NucRead) :
    refMatch r0 n = n := by
  unfold refMatch
  rw [if_neg hr0.1, if_neg hr0.2.1, if_neg hr0.2.2.1, if_neg hr0.2.2.2]

/-- Against a reference base `m_ref_nuc` the scan ends with the counters it ends with
against a base `r0` outside A, C, G, T, plus one in the slot of `m_ref_nuc` for every `.`
and `,` of the string. -/
theorem walk_ref_shift (m_ref_nuc r0 : List Char)
    (hr0 : r0 ≠ ['A'] ∧ r0 ≠ ['C'] ∧ r0 ≠ ['G'] ∧ r0 ≠ ['T']) (l : List Char) :
    ∀ (ng : Nat) (caret : Bool) (skip : Nat) (n : NucRead) (k : Nat),
      walk m_ref_nuc ng caret skip (n.add (refSlot m_ref_nuc k)) l
        = (walk r0 ng caret skip n l).map
            (fun q => q.add (refSlot m_ref_nuc (k + (l.count '.' + l.count ',')))) := by
  induction l with
  | nil => intro ng caret skip n k; simp [walk]
  | cons ch rest ih =>
    intro ng caret skip n k
    have hcnt : ∀ c : Char, (ch :: rest).count c = rest.count c + if ch = c then 1 else 0 := by
      intro c; simp [List.count_cons]
    rw [walk, walk]
    by_cases h1 : ch = '.' ∨ ch = ','
    · have hone : (ch :: rest).count '.' + (ch :: rest).count ','
          = 1 + (rest.count '.' + rest.count ',') := by
        rw [hcnt, hcnt]
        rcases h1 with h | h <;> subst h <;> simp <;> omega
      rw [if_pos h1, if_pos h1, refSlot_succ, refMatch_other r0 hr0, ih, hone,
        Nat.add_assoc k 1]
    · have hsame : (ch :: rest).count '.' + (ch :: rest).count ','
          = rest.count '.' + rest.count ',' := by
        rw [hcnt, hcnt, if_neg (fun h => h1 (Or.inl h)), if_neg (fun h => h1 (Or.inr h)),
          Nat.add_zero, Nat.add_zero]
      rw [if_neg h1, if_neg h1, hsame]
      by_cases h2 : ch = '+' ∨ ch = '-'
      · rw [if_pos h2, if_pos h2]
        cases digitRun rest with
        | none => rfl
        | some ds => simp only [ih]
      · rw [if_neg h2, if_neg h2]
        by_cases h3 : skip = 0
        · rw [if_pos h3, if_pos h3]
          cases caret with
          | true => simp only [if_true, ih]
          | false => simp only [Bool.false_eq_true, if_false, countBase_add_right, ih]
        · rw [if_neg h3, if_neg h3, ih]

theorem decode_ref_shift (m_ref_nuc r0 : List Char)
    (hr0 : r0 ≠ ['A'] ∧ r0 ≠ ['C'] ∧ r0 ≠ ['G'] ∧ r0 ≠ ['T']) (dp : Int) (s : List Char)
    (hdp : dp ≥ 1) (q0 : NucRead) (h0 : decode r0 dp s = some q0) :
    decode m_ref_nuc dp s = some (q0.add (refSlot m_ref_nuc (s.count '.' + s.count ','))) := by
  rw [decode_eq_walk, if_pos hdp] at h0 ⊢
  have hz : NucRead.zero = NucRead.zero.add (refSlot m_ref_nuc 0) := by
    simp only [NucRead.add, NucRead.zero, refSlot, NucRead.mk.injEq]
    refine ⟨?_, ?_, ?_, ?_⟩ <;> split_ifs <;> rfl
  rw [hz, walk_ref_shift m_ref_nuc r0 hr0 s 0 false 0 NucRead.zero 0, h0]
  simp

/-- C14: with depth >= 1, for every read string `s` that decodes (to `q0`) against a
reference base `r0` outside A, C, G, T, the quartet decoded against each of A, C, G, T is
`q0` plus, in the slot of that base only, the number of `.` and `,` in `s`, wherever they
stand. -/
theorem ref_match_credit (r0 : List Char) (dp : Int) (s : List Char) (q0 : NucRead)
    (hdp : dp ≥ 1) (hr0 : r0 ≠ ['A'] ∧ r0 ≠ ['C'] ∧ r0 ≠ ['G'] ∧ r0 ≠ ['T'])
    (h0 : decode r0 dp s = some q0) :
    decode ['A'] dp s = some ⟨q0.a + (s.count '.' + s.count ','), q0.c, q0.g, q0.t⟩ ∧
    decode ['C'] dp s = some ⟨q0.a, q0.c + (s.count '.' + s.count ','), q0.g, q0.t⟩ ∧
    decode ['G'] dp s = some ⟨q0.a, q0.c, q0.g + (s.count '.' + s.count ','), q0.t⟩ ∧
    decode ['T'] dp s = some ⟨q0.a, q0.c, q0.g, q0.t + (s.count '.' + s.count ',')⟩ := by
  refine ⟨?_, ?_, ?_, ?_⟩
  · rw [decode_ref_shift ['A'] r0 hr0 dp s hdp q0 h0]; simp [NucRead.add, refSlot]
  · rw [decode_ref_shift ['C'] r0 hr0 dp s hdp q0 h0]; simp [NucRead.add, refSlot]
  · rw [decode_ref_shift ['G'] r0 hr0 dp s hdp q0 h0]; simp [NucRead.add, refSlot]
  · rw [decode_ref_shift ['T'] r0 hr0 dp s hdp q0 h0]; simp [NucRead.add, refSlot]

/-- C14 witness: `^.+1,a.` against `N` decodes to (1,0,0,0); its three `.`/`,`, one after
`^` and one inside the indel span, are all credited against A, C, G and T. -/
theorem ref_match_credit_witness :
    decode ['N'] 1 "^.+1,a.".toList = some ⟨1, 0, 0, 0⟩ ∧
    decode ['A'] 1 "^.+1,a.".toList = some ⟨4, 0, 0, 0⟩ ∧
    decode ['C'] 1 "^.+1,a.".toList = some ⟨1, 3, 0, 0⟩ ∧
    decode ['G'] 1 "^.+1,a.".toList = some ⟨1, 0, 3, 0⟩ ∧
    decode ['T'] 1 "^.+1,a.".toList = some ⟨1, 0, 0, 3⟩ :=
  ⟨by decide, ref_match_credit ['N'] 1 "^.+1,a.".toList ⟨1, 0, 0, 0⟩ (by decide) (by decide)
    (by decide)⟩

theorem NucRead.zero_add (q : NucRead) : NucRead.zero.add q = q := by
  simp [NucRead.add, NucRead.zero]

theorem NucRead.add_comm (x y : NucRead) : x.add y = y.add x := by
  simp only [NucRead.add, NucRead.mk.injEq]
  refine ⟨?_, ?_, ?_, ?_⟩ <;> omega

/-- Decoding a string without `+` or `-` that does not end in `^`, followed by a string
whose declared indel sizes, added to the length of the whole, are below `2^31`: the first
part decodes, and the whole decodes to the sum when the second part decodes and fails
when it fails. -/
theorem decode_append (m_ref_nuc : List Char) (dp : Int) (s1 s2 : List Char) (hdp : dp ≥ 1)
    (hs1 : ∀ ch ∈ s1, ch ≠ '+' ∧ ch ≠ '-') (hlast : s1.getLast? ≠ some '^')
    (hsizes : ∀ k ∈ declaredSizes s2, k + (s1 ++ s2).length < 2147483648) :
    ∃ q1 : NucRead, decode m_ref_nuc dp s1 = some q1 ∧
      decode m_ref_nuc dp (s1 ++ s2)
        = (decode m_ref_nuc dp s2).map (fun q2 => q1.add q2) := by
  obtain ⟨q1, hq1⟩ := walk_plain_stretch m_ref_nuc s1 hs1 0 false NucRead.zero
  refine ⟨q1, ?_, ?_⟩
  · have h := hq1 []
    rw [List.append_nil] at h
    rw [decode_eq_walk, if_pos hdp, h]
    rfl
  · have hshift : walk m_ref_nuc (0 + s1.length) false 0 q1 s2
        = walk m_ref_nuc 0 false 0 q1 s2 := by
      apply walk_shift
      intro k hk
      have := hsizes k hk
      simp only [List.length_append] at this
      omega
    rw [decode_eq_walk, decode_eq_walk, if_pos hdp, if_pos hdp, hq1 s2,
      endsCaret_of_getLast s1 hlast, hshift]
    have h := walk_add m_ref_nuc q1 s2 0 false 0 NucRead.zero
    rw [NucRead.zero_add] at h
    rw [h]
    cases walk m_ref_nuc 0 false 0 NucRead.zero s2 with
    | none => rfl
    | some q2 => simp [NucRead.add_comm]

/-- C15 (as stated, refuted): with reference base `A`, depth 1, `s1 = A` and
`s2 = +2147483637A`, decoding `s1 ++ s2` gives (2,0,0,0) while `s1` decodes to (1,0,0,0)
and `s2` to (0,0,0,0): at position 1 the end offset `1 + 10 + 2147483637` is above
`2^31 - 1`, wraps below the position and the last `A`, inside the indel when `s2` stands
alone, is counted. -/
theorem concat_additive_counterexample :
    decode ['A'] 1 (['A'] ++ "+2147483637A".toList) = some ⟨2, 0, 0, 0⟩ ∧
      decode ['A'] 1 ['A'] = some ⟨1, 0, 0, 0⟩ ∧
      decode ['A'] 1 "+2147483637A".toList = some ⟨0, 0, 0, 0⟩ := by
  decide

/-- C15 (amended): with depth >= 1, for every reference base, every read string `s1`
without `+` or `-` that does not end in `^`, and every read string `s2` in which every
declared indel size, added to the length of `s1 ++ s2`, is below `2^31`, decoding
`s1 ++ s2` fails exactly when decoding `s2` fails, and otherwise gives the slot-wise sum
of the quartets of `s1` and `s2`. -/
theorem concat_additive (m_ref_nuc : List Char) (dp : Int) (s1 s2 : List Char) (hdp : dp ≥ 1)
    (hs1 : ∀ ch ∈ s1, ch ≠ '+' ∧ ch ≠ '-') (hlast : s1.getLast? ≠ some '^')
    (hsizes : ∀ k ∈ declaredSizes s2, k + (s1 ++ s2).length < 2147483648) :
    (decode m_ref_nuc dp (s1 ++ s2) = none ↔ decode m_ref_nuc dp s2 = none) ∧
    ∃ q1 : NucRead, decode m_ref_nuc dp s1 = some q1 ∧
      ∀ q2 : NucRead, decode m_ref_nuc dp s2 = some q2 →
        decode m_ref_nuc dp (s1 ++ s2)
          = some ⟨q1.a + q2.a, q1.c + q2.c, q1.g + q2.g, q1.t + q2.t⟩ := by
  obtain ⟨q1, h1, h2⟩ := decode_append m_ref_nuc dp s1 s2 hdp hs1 hlast hsizes
  refine ⟨?_, q1, h1, fun q2 hq2 => ?_⟩
  · rw [h2, Option.map_eq_none']
  · rw [h2, hq2]
    rfl

/-- C15 witness: `.^]a` followed by `+2gg,T`, and followed by the failing `C-1`. -/
theorem concat_additive_witness :
    ((decode ['G'] 1 (".^]a".toList ++ "+2gg,T".toList) = none
        ↔ decode ['G'] 1 "+2gg,T".toList = none) ∧
      ∃ q1 : NucRead, decode ['G'] 1 ".^]a".toList = some q1 ∧
        ∀ q2 : NucRead, decode ['G'] 1 "+2gg,T".toList = some q2 →
          decode ['G'] 1 (".^]a".toList ++ "+2gg,T".toList)
            = some ⟨q1.a + q2.a, q1.c + q2.c, q1.g + q2.g, q1.t + q2.t⟩) ∧
    decode ['G'] 1 ".^]a".toList = some ⟨1, 0, 1, 0⟩ ∧
    decode ['G'] 1 "+2gg,T".toList = some ⟨0, 0, 1, 1⟩ ∧
    decode ['G'] 1 ".^]a+2gg,T".toList = some ⟨1, 0, 2, 1⟩ ∧
    decode ['G'] 1 ".^]aC-1".toList = none :=
  ⟨concat_additive ['G'] 1 ".^]a".toList "+2gg,T".toList (by decide) (by decide) (by decide)
    (by decide), by decide, by decide, by decide, by decide⟩

/-! ## The merge on desynchronised input -/

end Mpileup2pro
